import Mathlib

/-!
Verification development for the IREP rule-induction engine
(src/Classification/IREP: Condition.py, Rule.py, IREPModel.py, and
Classification/Parameter/IREPParameter.py).

Shallow embedding notes:
* Python attribute values are either floats (continuous attributes) or
  strings (discrete attributes).  Finite floats are modelled as exact
  rationals (the standard shallow-embedding concession; every comparison
  the engine performs is modelled exactly), the non-finite floats inf,
  -inf and nan produced by float() on inf/infinity/nan strings have their
  own constructors with Python comparison semantics, and strings are Lean
  strings.
* Rationals are computed with kernel-reducible wrappers (qAdd, qMul, qDiv,
  qPow, built on Rat.divInt) because the library operations on ℚ are marked
  irreducible and cannot be evaluated by the kernel.  Each wrapper is proved
  equal to the corresponding library operation below, so theorems can be
  stated and proved against the ordinary field structure of ℚ.
* Python string manipulation (strip, split, startswith, join, slicing) is
  modelled by structurally recursive functions on the character list of a
  Lean String, mirroring Python semantics (split on a non-empty separator,
  stable left-to-right scanning).
* random.shuffle is modelled by an explicit oracle parameter
  (shuffle : List Instance → List Instance) supplied to train; the Python
  Mersenne-Twister stream is not modelled.
-/

/-! ## Kernel-reducible rational arithmetic -/

/-- Addition on ℚ via an unreduced fraction, kernel-reducible. -/
def qAdd (a b : ℚ) : ℚ := Rat.divInt (a.num * b.den + b.num * a.den) (a.den * b.den)

/-- Multiplication on ℚ via an unreduced fraction, kernel-reducible. -/
def qMul (a b : ℚ) : ℚ := Rat.divInt (a.num * b.num) (a.den * b.den)

/-- Division on ℚ via an unreduced fraction, kernel-reducible. -/
def qDiv (a b : ℚ) : ℚ := Rat.divInt (a.num * b.den) (a.den * b.num)

/-- Power on ℚ, kernel-reducible. -/
def qPow (a : ℚ) : ℕ → ℚ
  | 0 => 1
  | n + 1 => qMul a (qPow a n)

/-- Truncation toward zero, the semantics of Python int() on a float. -/
def qTrunc (a : ℚ) : ℤ := a.num.tdiv a.den

/-! ## Data model

The dataset collaborators (Instance, Attribute) live outside this
repository; they are modelled at the interface described by the spec:
an instance is an ordered list of typed attribute values plus a class
label, read-only for the engine. -/

/-- Discriminator for the two attribute families (isinstance check on
ContinuousAttribute in the source). -/
inductive AttrKind where
  | continuous
  | discrete
deriving DecidableEq

/-- A Python attribute value: a float or a string.  Finite floats are
modelled as exact rationals; the two infinities and nan, which float()
produces for the strings "inf"/"infinity"/"nan" (any case, optional sign),
have their own constructors. -/
inductive Value where
  | num (q : ℚ)
  | inf
  | ninf
  | nan
  | str (s : String)
deriving DecidableEq

/-- Python == on attribute values: mixed float/string compares unequal,
each infinity equals only itself, and nan equals nothing (not even nan). -/
def valueEq : Value → Value → Bool
  | .num a, .num b => a = b
  | .inf, .inf => true
  | .ninf, .ninf => true
  | .str a, .str b => a = b
  | _, _ => false

/-- Python <= on attribute values.  Same-type comparisons are numeric
resp. lexicographic; -inf is below and inf above every finite float, and
every comparison against nan is false.  A mixed float/string comparison
raises TypeError in Python; it is unreachable for grower-created
conditions (operator families are chosen by attribute kind) and is
modelled as false. -/
def valueLe : Value → Value → Bool
  | .num a, .num b => a ≤ b
  | .num _, .inf => true
  | .ninf, .num _ => true
  | .inf, .inf => true
  | .ninf, .ninf => true
  | .ninf, .inf => true
  | .str a, .str b => a.data < b.data ∨ a.data = b.data
  | _, _ => false

/-- Python < on attribute values (same conventions as valueLe). -/
def valueLt : Value → Value → Bool
  | .num a, .num b => a < b
  | .num _, .inf => true
  | .ninf, .num _ => true
  | .ninf, .inf => true
  | .str a, .str b => a.data < b.data
  | _, _ => false

/-- An attribute of an instance: its kind and its value. -/
structure AttrVal where
  kind : AttrKind
  value : Value
deriving DecidableEq

/-- A training/prediction instance: ordered attribute values plus a class
label (Instance.getAttribute, Instance.getClassLabel, Instance.attributeSize). -/
structure Instance where
  attrs : List AttrVal
  classLabel : String
deriving DecidableEq

/-- Instance.getAttribute(index).  Out-of-range access raises in Python and
never occurs in the engine flow; it is modelled by a default value. -/
def Instance.getAttribute (inst : Instance) (i : ℕ) : AttrVal :=
  inst.attrs.getD i ⟨.discrete, .str ""⟩

/-- Instance.attributeSize(). -/
def Instance.attributeSize (inst : Instance) : ℕ := inst.attrs.length

/-! ## Condition (Condition.py) -/

/-- A single condition of a rule: attribute index, operator string, value. -/
structure Condition where
  attribute_index : ℕ
  operator : String
  value : Value
deriving DecidableEq

/-- Condition.satisfies: get the instance value at attribute_index and apply
the operator against the stored value; any unsupported operator yields
false (the final else branch of the source). -/
def Condition.satisfies (c : Condition) (inst : Instance) : Bool :=
  let val := (inst.getAttribute c.attribute_index).value
  if c.operator = "<=" then valueLe val c.value
  else if c.operator = ">" then valueLt c.value val
  else if c.operator = "==" then valueEq val c.value
  else false

/-! ## Rule (Rule.py) -/

/-- A classification rule: target class label plus an ordered conjunction of
conditions. -/
structure Rule where
  class_label : String
  conditions : List Condition
deriving DecidableEq

/-- Rule.covers: conjunction of satisfies over all conditions (vacuously
true for the empty rule). -/
def Rule.covers (r : Rule) (inst : Instance) : Bool :=
  r.conditions.all (fun c => c.satisfies inst)

/-- Rule.add_condition: append at the end. -/
def Rule.add_condition (r : Rule) (c : Condition) : Rule :=
  { r with conditions := r.conditions ++ [c] }

/-- Rule.remove_condition: remove the condition at the given index when in
bounds; no-op otherwise (List.eraseIdx has exactly this behaviour). -/
def Rule.remove_condition (r : Rule) (i : ℕ) : Rule :=
  { r with conditions := r.conditions.eraseIdx i }

/-- Rule.get_length. -/
def Rule.get_length (r : Rule) : ℕ := r.conditions.length

/-! ## Model state -/

/-- The engine state: ordered rule list and the fallback default class
(None before training, modelled as Option). -/
structure IREPModel where
  rules : List Rule
  default_class : Option String
deriving DecidableEq

/-- The scan of IREPModel.predict: first rule that covers wins, otherwise
the default class. -/
def predictScan (dflt : Option String) (inst : Instance) : List Rule → Option String
  | [] => dflt
  | r :: rs => if r.covers inst then some r.class_label else predictScan dflt inst rs

/-- IREPModel.predict. -/
def IREPModel.predict (m : IREPModel) (inst : Instance) : Option String :=
  predictScan m.default_class inst m.rules

/-! ## Python string primitives

Modelled structurally on character lists (kernel-reducible); the library
String operations use byte-position recursion the kernel cannot evaluate. -/

/-- Is the first list a prefix of the second (Boolean, structural)? -/
def isPrefixC : List Char → List Char → Bool
  | [], _ => true
  | _ :: _, [] => false
  | a :: as, b :: bs => a = b && isPrefixC as bs

/-- Worker for Python str.split(sep): scan left to right, cutting at each
non-overlapping occurrence of sep.  The accumulator holds the current piece
reversed; fuel bounds the recursion (input length suffices, each step
consumes at least one character). -/
def splitGo (sep : List Char) : ℕ → List Char → List Char → List (List Char)
  | 0, acc, rest => [acc.reverse ++ rest]
  | fuel + 1, acc, rest =>
    match rest with
    | [] => [acc.reverse]
    | c :: cs =>
      if isPrefixC sep (c :: cs) then
        acc.reverse :: splitGo sep fuel [] (List.drop sep.length (c :: cs))
      else
        splitGo sep fuel (c :: acc) cs

/-- Python str.split(sep) on character lists (sep is always non-empty at
the call sites, as in the source). -/
def splitChars (sep cs : List Char) : List (List Char) :=
  splitGo sep (cs.length + 1) [] cs

/-- Python s.split(sep). -/
def splitOnStr (s sep : String) : List String :=
  (splitChars sep.data s.data).map String.mk

/-- Python s.startswith(p). -/
def startsWithStr (s p : String) : Bool := isPrefixC p.data s.data

/-- Drop leading and trailing characters satisfying p from a list. -/
def stripEnds (p : Char → Bool) (cs : List Char) : List Char :=
  ((cs.dropWhile p).reverse.dropWhile p).reverse

/-- The whitespace set of Python str.strip() (Py_UNICODE_ISSPACE): the
ASCII characters 0x09-0x0D, 0x1C-0x1F and space, plus NEL (0x85) and the
Unicode space code points. -/
def pyIsSpace (c : Char) : Bool :=
  decide ((9 ≤ c.toNat ∧ c.toNat ≤ 13) ∨ (28 ≤ c.toNat ∧ c.toNat ≤ 32) ∨
    c.toNat = 133 ∨ c.toNat = 160 ∨ c.toNat = 5760 ∨
    (8192 ≤ c.toNat ∧ c.toNat ≤ 8202) ∨ c.toNat = 8232 ∨ c.toNat = 8233 ∨
    c.toNat = 8239 ∨ c.toNat = 8287 ∨ c.toNat = 12288)

/-- The whitespace set stripped by float() around its literal: as for
str.strip() but without the separator controls 0x1C-0x1F, which CPython's
number parser rejects (only the ASCII spaces 0x09-0x0D and 0x20 survive to
the C-level parse; the non-ASCII space code points are first mapped to an
ASCII space). -/
def floatIsSpace (c : Char) : Bool :=
  decide ((9 ≤ c.toNat ∧ c.toNat ≤ 13) ∨ c.toNat = 32 ∨
    c.toNat = 133 ∨ c.toNat = 160 ∨ c.toNat = 5760 ∨
    (8192 ≤ c.toNat ∧ c.toNat ≤ 8202) ∨ c.toNat = 8232 ∨ c.toNat = 8233 ∨
    c.toNat = 8239 ∨ c.toNat = 8287 ∨ c.toNat = 12288)

/-- Drop leading and trailing Python whitespace from a character list. -/
def stripPyChars (cs : List Char) : List Char := stripEnds pyIsSpace cs

/-- Python s.strip(): drop leading and trailing whitespace. -/
def trimStr (s : String) : String :=
  String.mk (stripPyChars s.data)

/-- Python sep.join(parts). -/
def joinSep (sep : String) : List String → String
  | [] => ""
  | p :: ps => ps.foldl (fun acc x => acc ++ sep ++ x) p

/-- Numeric value of a digit list (most significant first). -/
def natValC (cs : List Char) : ℕ := cs.foldl (fun a c => a * 10 + (c.toNat - 48)) 0

/-- Continuation of a digitpart after its leading digit (PEP 515): digits
with single underscores strictly between digits. -/
def digitTail : List Char → Bool
  | [] => true
  | '_' :: rest =>
    match rest with
    | c :: cs => c.isDigit && digitTail cs
    | [] => false
  | c :: cs => c.isDigit && digitTail cs

/-- A digitpart of the Python float grammar: nonempty, starts and ends
with a digit, underscores only between digits. -/
def isDigitPart : List Char → Bool
  | [] => false
  | c :: rest => c.isDigit && digitTail rest

/-- The digits of a digitpart with the underscores removed. -/
def stripUnderscores (cs : List Char) : List Char := cs.filter (fun c => c != '_')

/-- Python int(s): strip whitespace (the same set as for float()), an
optional plus sign, then a decimal digitpart with PEP 515 underscores.
The token this program converts is a piece of a split on "-", so it can
never contain a minus sign and the result is never negative; non-ASCII
decimal digits are outside the modelled ASCII fragment. -/
def toNatC (cs : List Char) : Option ℕ :=
  match stripEnds floatIsSpace cs with
  | '+' :: rest =>
    if isDigitPart rest then some (natValC (stripUnderscores rest)) else none
  | rest =>
    if isDigitPart rest then some (natValC (stripUnderscores rest)) else none

/-- Split at the first e/E into mantissa and optional exponent text. -/
def splitExp : List Char → List Char × Option (List Char)
  | [] => ([], none)
  | c :: cs =>
    if c = 'e' ∨ c = 'E' then ([], some cs)
    else
      let r := splitExp cs
      (c :: r.1, r.2)

/-- Split at the first dot into integer part and optional fraction text. -/
def splitDot : List Char → List Char × Option (List Char)
  | [] => ([], none)
  | c :: cs =>
    if c = '.' then ([], some cs)
    else
      let r := splitDot cs
      (c :: r.1, r.2)

/-- The exponent of the float grammar: an optionally signed digitpart. -/
def parseExpPart (cs : List Char) : Option ℤ :=
  match cs with
  | '+' :: rest =>
    if isDigitPart rest then some ((natValC (stripUnderscores rest) : ℤ)) else none
  | '-' :: rest =>
    if isDigitPart rest then some (-(natValC (stripUnderscores rest) : ℤ)) else none
  | rest =>
    if isDigitPart rest then some ((natValC (stripUnderscores rest) : ℤ)) else none

/-- The mantissa of the float grammar: digitpart [.] | [digitpart] . digitpart
| digitpart . [digitpart], returned as the scaled integer value together
with the number of fraction digits. -/
def parseMantissa (cs : List Char) : Option (ℕ × ℕ) :=
  match splitDot cs with
  | (ip, none) =>
    if isDigitPart ip then some (natValC (stripUnderscores ip), 0) else none
  | (ip, some fp) =>
    if (isDigitPart ip ∨ ip = []) ∧ (isDigitPart fp ∨ fp = []) ∧ (ip ≠ [] ∨ fp ≠ []) then
      some (natValC (stripUnderscores ip) * 10 ^ (stripUnderscores fp).length +
        natValC (stripUnderscores fp), (stripUnderscores fp).length)
    else none

/-- Lower-case the ASCII letters occurring in inf/infinity/nan; the
letter-by-letter image of a string equals "inf"/"infinity"/"nan" exactly
for their case variants. -/
def lowerInfNan (c : Char) : Char :=
  if c = 'I' then 'i' else if c = 'N' then 'n' else if c = 'F' then 'f'
  else if c = 'T' then 't' else if c = 'Y' then 'y' else if c = 'A' then 'a' else c

/-- The exact finite value sign * (n / 10 ^ flen) * 10 ^ e. -/
def mkFiniteFloat (neg : Bool) (n : ℕ) (flen : ℕ) (e : ℤ) : Value :=
  let mag : ℚ :=
    if 0 ≤ e then Rat.divInt ((n : ℤ) * 10 ^ e.toNat) (10 ^ flen)
    else Rat.divInt (n : ℤ) ((10 : ℤ) ^ flen * 10 ^ (-e).toNat)
  .num (if neg then -mag else mag)

/-- The sign-stripped body of float(s): case-insensitive inf/infinity/nan,
or a decimal literal with optional fraction and exponent. -/
def parseFloatBody (cs : List Char) (neg : Bool) : Option Value :=
  let low := cs.map lowerInfNan
  if low = "inf".data ∨ low = "infinity".data then some (if neg then .ninf else .inf)
  else if low = "nan".data then some .nan
  else
    match splitExp cs with
    | (mant, eopt) =>
      match parseMantissa mant with
      | none => none
      | some (n, flen) =>
        match eopt with
        | none => some (mkFiniteFloat neg n flen 0)
        | some ecs =>
          match parseExpPart ecs with
          | none => none
          | some e => some (mkFiniteFloat neg n flen e)

/-- CPython float(s): strip whitespace, optional sign, then the
case-insensitive words inf/infinity/nan or a decimal literal with PEP 515
underscores and an optional exponent.  Finite values are kept exactly (the
floats-as-exact-rationals convention of this embedding; in particular no
rounding and no overflow of huge exponents to the infinities).  CPython
also maps Unicode decimal digits to ASCII before parsing; non-ASCII digits
are outside the ASCII text fragment modelled here. -/
def parseFloat (s : String) : Option Value :=
  match stripEnds floatIsSpace s.data with
  | '+' :: rest => parseFloatBody rest false
  | '-' :: rest => parseFloatBody rest true
  | rest => parseFloatBody rest false

/-- Smallest exponent k (searched up to 40) with den dividing 10 ^ k:
the reduced denominator of every Python float divides a power of ten. -/
def decExpOf (d : ℕ) : Option ℕ := (List.range 41).find? (fun k => 10 ^ k % d = 0)

/-- Pad a digit string with leading zeros to width k. -/
def padLeftZeros (k : ℕ) (s : String) : String :=
  String.mk (List.replicate (k - s.data.length) '0' ++ s.data)

/-- Python str(float) for terminating decimals: sign, integer part, a dot,
and the fractional digits without trailing zeros (integral values render
with a trailing ".0", as in Python).  For magnitudes below 1e-4 or at and
above 1e16 Python switches to exponent notation; this rendering stays in
plain decimal digits, which denotes the same value and reads back to the
same float, so round-trip behaviour is unaffected.  Rationals that are not
terminating decimals cannot arise from Python floats; they fall back to a
fraction rendering. -/
def renderQ (q : ℚ) : String :=
  let sign := if q.num < 0 then "-" else ""
  let n := q.num.natAbs
  if q.den = 1 then sign ++ toString n ++ ".0"
  else
    match decExpOf q.den with
    | some k =>
      let scaled := n * 10 ^ k / q.den
      sign ++ toString (scaled / 10 ^ k) ++ "." ++ padLeftZeros k (toString (scaled % 10 ^ k))
    | none => sign ++ toString n ++ "/" ++ toString q.den

/-! ## Persistence (saveModel / loadModel / parse_and_add_rule)

The file is modelled as its content string: saveModel writes one
newline-terminated line per rule after the DefaultClass line, and
loadModel reads the lines back (universal-newline splitting of readlines)
and strips each before dispatching on its prefix. -/

/-- Python str() of an attribute value as embedded in a rule line
(str(float("inf")) is "inf", str(float("-inf")) is "-inf", str(float("nan"))
is "nan"). -/
def renderValue : Value → String
  | .num q => renderQ q
  | .inf => "inf"
  | .ninf => "-inf"
  | .nan => "nan"
  | .str s => s

/-- Condition.__str__. -/
def condToString (c : Condition) : String :=
  "Att-" ++ toString c.attribute_index ++ " " ++ c.operator ++ " " ++ renderValue c.value

/-- Rule.__str__. -/
def ruleToString (r : Rule) : String :=
  "IF " ++ joinSep (" AND ") (r.conditions.map condToString) ++ " THEN " ++ r.class_label

/-- Python str() of the stored default class: None renders as "None". -/
def defaultClassStr : Option String → String
  | none => "None"
  | some s => s

/-- One step of the line splitter, folded from the right.  The state is
the character just to the right of the current position together with the
lines seen so far (head = the line being built).  A newline always breaks;
a carriage return breaks unless the character to its right is a newline
(then the pair is the single break the newline already produced); any
other character extends the current line.  This is the universal-newline
translation Python applies when reading the model file back in text mode
(only these three byte sequences break lines on read). -/
def splitLinesStep (c : Char) (st : Option Char × List (List Char)) :
    Option Char × List (List Char) :=
  if c = '\n' then (some c, [] :: st.2)
  else if c = '\r' then
    if st.1 = some '\n' then (some c, st.2) else (some c, [] :: st.2)
  else
    match st.2 with
    | [] => (some c, [[c]])
    | h :: t => (some c, (c :: h) :: t)

/-- Python readlines of a text file, without the kept line terminators
(loadModel strips each line anyway): split at \n, \r and \r\n, and do not
produce a final empty line when the content ends with a break (or is
empty). -/
def splitLinesPy (cs : List Char) : List (List Char) :=
  let lines := (cs.foldr splitLinesStep (none, [[]])).2
  match lines.getLast? with
  | some [] => lines.dropLast
  | _ => lines

/-- The file content written for a list of lines: each line followed by a
newline, in order (the sequential file.write calls of saveModel). -/
def fileOfLines (ls : List String) : String :=
  ls.foldl (fun acc l => acc ++ l ++ "\n") ""

/-- The lines saveModel writes: the DefaultClass line followed by one line
per rule, in stored order. -/
def saveLines (m : IREPModel) : List String :=
  ("DefaultClass:" ++ defaultClassStr m.default_class) :: m.rules.map ruleToString

/-- IREPModel.saveModel: the written file content. -/
def IREPModel.saveModel (m : IREPModel) : String := fileOfLines (saveLines m)

/-- A string that stays a single line in the written file: free of the
newline and carriage-return characters at which reading breaks lines. -/
abbrev lineClean (s : String) : Prop := ∀ c ∈ s.data, ¬ c = '\n' ∧ ¬ c = '\r'

/-- Value parsing on load: float(s) if it parses, else the literal string
(the try/except ValueError of parse_and_add_rule). -/
def parseValue (s : String) : Value :=
  match parseFloat s with
  | some v => v
  | none => .str s

/-- One condition token of a rule line: "Att-i op value" split on single
spaces; extra tokens are ignored as in the source (terms[0..2]).  Failure
of any step raises in Python and discards the whole rule line. -/
def parseCondition (s : String) : Option Condition :=
  match splitOnStr s (" ") with
  | t0 :: t1 :: t2 :: _ =>
    match toNatC ((splitChars ['-'] t0.data).getD 1 []) with
    | some idx => some ⟨idx, t1, parseValue t2⟩
    | none => none
  | _ => none

/-- IREPModel.parse_and_add_rule, as a fallible parser: split on " THEN ",
strip the leading "IF ", split conditions on " AND ", parse each; any
failure discards the line (the bare except in the source). -/
def parseRule (line : String) : Option Rule :=
  match splitOnStr line (" THEN ") with
  | p0 :: p1 :: _ =>
    match (splitOnStr (String.mk (p0.data.drop 3)) (" AND ")).mapM parseCondition with
    | some conds => some ⟨p1, conds⟩
    | none => none
  | _ => none

/-- Processing of one line of the model file by IREPModel.loadModel. -/
def loadLine (m : IREPModel) (line : String) : IREPModel :=
  let l := trimStr line
  if l.data = [] then m
  else if startsWithStr l ("DefaultClass:") then
    { m with default_class := some ((splitOnStr l (":")).getD 1 "") }
  else if startsWithStr l ("IF ") then
    match parseRule l with
    | some r => { m with rules := m.rules ++ [r] }
    | none => m
  else m

/-- IREPModel.loadModel: reset the rule list, then fold over the lines of
the file content (readlines, each line processed by the loop body). -/
def IREPModel.loadModel (m : IREPModel) (content : String) : IREPModel :=
  ((splitLinesPy content.data).map String.mk).foldl loadLine { m with rules := [] }

/-! ## Parameters (IREPParameter.py) -/

/-- Training parameters: random seed (consumed only by the shuffle oracle),
pruning split fraction (field pruning_ratio in the source) and minimum rule
coverage. -/
structure IREPParameter where
  seed : Option ℤ
  pruningFraction : ℚ
  min_coverage : ℕ
deriving DecidableEq

/-! ## Metrics and helpers of IREPModel -/

/-- IREPModel.has_positive_instances. -/
def has_positive_instances (insts : List Instance) (pos : String) : Bool :=
  insts.any (fun i => i.classLabel == pos)

/-- IREPModel.calculate_pruning_metric: (p + (N - n)) / (P + N) on the
given instance set, computed over ℤ and divided exactly (the source divides
Python ints producing a float). -/
def calculate_pruning_metric (rule : Rule) (insts : List Instance) (pos : String) : ℚ :=
  if insts.length = 0 then 0
  else
    Rat.divInt
      (((insts.filter (fun i => rule.covers i)).countP (fun i => i.classLabel == pos) : ℤ)
        + (((insts.length : ℤ) - (insts.countP (fun i => i.classLabel == pos) : ℤ))
          - ((insts.filter (fun i => rule.covers i)).countP (fun i => !(i.classLabel == pos)) : ℤ)))
      ((insts.countP (fun i => i.classLabel == pos) : ℤ)
        + ((insts.length : ℤ) - (insts.countP (fun i => i.classLabel == pos) : ℤ)))

/-- IREPModel.calculate_empty_clause_metric: N / (P + N). -/
def calculate_empty_clause_metric (insts : List Instance) (pos : String) : ℚ :=
  if insts.length = 0 then 0
  else
    Rat.divInt ((insts.length : ℤ) - (insts.countP (fun i => i.classLabel == pos) : ℤ))
      ((insts.countP (fun i => i.classLabel == pos) : ℤ)
        + ((insts.length : ℤ) - (insts.countP (fun i => i.classLabel == pos) : ℤ)))

/-- The epsilon guard 1e-9 of calculate_foil_gain, as an exact rational. -/
def epsQ : ℚ := Rat.divInt 1 1000000000

/-- The same epsilon as a real number. -/
noncomputable def epsR : ℝ := 1 / 1000000000

/-- IREPModel.calculate_foil_gain, translated literally: -inf (the bottom
element) when the candidate covers fewer than min_coverage instances or no
positive instance remains among the covered subset; otherwise
p1 * ((-log2(p0 / (p0 + n0 + eps))) - (-log2(p1 / (p1 + n1 + eps)))). -/
noncomputable def calculate_foil_gain (insts : List Instance) (cond : Condition)
    (pos : String) (mc : ℕ) : WithBot ℝ :=
  let pos_before := insts.countP (fun i => i.classLabel == pos)
  let neg_before := insts.length - pos_before
  let subset := insts.filter (fun i => cond.satisfies i)
  if subset.length < mc then ⊥
  else
    let pos_after := subset.countP (fun i => i.classLabel == pos)
    let neg_after := subset.length - pos_after
    if pos_after = 0 then ⊥
    else
      (((pos_after : ℝ) *
        ((-Real.logb 2 ((pos_before : ℝ) / ((pos_before : ℝ) + (neg_before : ℝ) + epsR))) -
          (-Real.logb 2 ((pos_after : ℝ) / ((pos_after : ℝ) + (neg_after : ℝ) + epsR)))) : ℝ) : WithBot ℝ)

/-- Kernel-computable companion of calculate_foil_gain: its image under the
strictly monotone map x approaches 2 ^ x (with -inf sent to 0), namely
((p1 / (p1 + n1 + eps)) / (p0 / (p0 + n0 + eps))) ^ p1.  The growth loop
compares gains only, and the correspondence theorems below show the two
functions induce exactly the same comparisons, so using this companion in
the executable embedding is faithful to the source. -/
def foil_gain_t (insts : List Instance) (cond : Condition) (pos : String) (mc : ℕ) : ℚ :=
  let pos_before := insts.countP (fun i => i.classLabel == pos)
  let neg_before := insts.length - pos_before
  let subset := insts.filter (fun i => cond.satisfies i)
  if subset.length < mc then 0
  else
    let pos_after := subset.countP (fun i => i.classLabel == pos)
    let neg_after := subset.length - pos_after
    if pos_after = 0 then 0
    else
      qPow (qDiv (qDiv (pos_after : ℚ) (qAdd (qAdd (pos_after : ℚ) (neg_after : ℚ)) epsQ))
        (qDiv (pos_before : ℚ) (qAdd (qAdd (pos_before : ℚ) (neg_before : ℚ)) epsQ))) pos_after

/-! ## Rule growth (IREPModel.grow_rule) -/

/-- Ascending insertion for the value sort of get_distinct_values. -/
def insertValue (v : Value) : List Value → List Value
  | [] => [v]
  | w :: ws => if valueLe w v then w :: insertValue v ws else v :: w :: ws

/-- Sort a value list ascending (Python sorted on a list of same-typed
values; distinct values make the result order unique). -/
def sortValues (vs : List Value) : List Value :=
  vs.foldl (fun acc v => insertValue v acc) []

/-- Deduplication keeping first occurrences (Python set, then sorted). -/
def dedupValues (vs : List Value) : List Value :=
  vs.foldl (fun acc v => if v ∈ acc then acc else acc ++ [v]) []

/-- IREPModel.get_distinct_values: sorted distinct attribute values of the
given column. -/
def get_distinct_values (insts : List Instance) (i : ℕ) : List Value :=
  sortValues (dedupValues (insts.map (fun inst => (inst.getAttribute i).value)))

/-- The candidate conditions enumerated by one pass of the grow loop, in
source iteration order: attributes ascending; per continuous attribute each
distinct value with "<=" then ">"; per discrete attribute each distinct
value with "==". -/
def candidateConds (current : List Instance) (sample : Instance) (numAttrs : ℕ) : List Condition :=
  (List.range numAttrs).flatMap (fun i =>
    match (sample.getAttribute i).kind with
    | .continuous => (get_distinct_values current i).flatMap (fun v => [⟨i, "<=", v⟩, ⟨i, ">", v⟩])
    | .discrete => (get_distinct_values current i).map (fun v => ⟨i, "==", v⟩))

/-- The best-candidate fold of the grow loop: running best condition and
best (transformed) gain, starting from (None, -inf); a candidate replaces
the running best only on strictly greater gain, so the first maximum wins,
exactly as in the source. -/
def bestCandidate (current : List Instance) (sample : Instance) (numAttrs : ℕ)
    (pos : String) (mc : ℕ) : Option Condition × ℚ :=
  (candidateConds current sample numAttrs).foldl
    (fun best c =>
      let g := foil_gain_t current c pos mc
      if best.2 < g then (some c, g) else best)
    (none, 0)

/-- The while loop of grow_rule.  Stops when no negatives remain in the
covered pool, when no candidate exists, or when the best gain is not
strictly positive (gain <= 0 corresponds to transformed gain <= 1);
otherwise appends the best condition and shrinks the pool to the instances
satisfying it.  Fuel bounds the recursion; every executed iteration
strictly shrinks the pool, so pool length + 1 suffices. -/
def growLoop (sample : Instance) (numAttrs : ℕ) (pos : String) (mc : ℕ) :
    ℕ → Rule → List Instance → Rule
  | 0, rule, _ => rule
  | fuel + 1, rule, current =>
    if (current.filter (fun i => !(i.classLabel == pos))).length = 0 then rule
    else
      match bestCandidate current sample numAttrs pos mc with
      | (none, _) => rule
      | (some c, g) =>
        if g ≤ 1 then rule
        else growLoop sample numAttrs pos mc fuel (rule.add_condition c)
          (current.filter (fun i => c.satisfies i))

/-- IREPModel.grow_rule: sample instance and attribute count come from the
growing set when non-empty, else from the training set; with no data at
all the empty rule is returned at once. -/
def grow_rule (insts trainSet : List Instance) (pos : String) (mc : ℕ) : Rule :=
  match insts with
  | sample :: _ => growLoop sample sample.attributeSize pos mc (insts.length + 1) ⟨pos, []⟩ insts
  | [] =>
    match trainSet with
    | sample :: _ => growLoop sample sample.attributeSize pos mc 1 ⟨pos, []⟩ []
    | [] => ⟨pos, []⟩

/-! ## Rule pruning (IREPModel.prune_rule) -/

/-- One scan of the pruning loop over all removable positions: the running
best metric starts at the incoming best and is updated on strict
improvement, returning the best single-condition-removed variant if any
improves (the improved flag of the source). -/
def bestImprovement (rule : Rule) (ps : List Instance) (pos : String) (best0 : ℚ) :
    Option (Rule × ℚ) :=
  (List.range rule.get_length).foldl
    (fun acc i =>
      let temp := rule.remove_condition i
      let metric := calculate_pruning_metric temp ps pos
      match acc with
      | none => if best0 < metric then some (temp, metric) else none
      | some (br, bm) => if bm < metric then some (temp, metric) else some (br, bm))
    none

/-- The while loop of prune_rule; each improving step removes exactly one
condition, so length + 1 fuel suffices (a rule of length 0 yields no
candidate positions and stops, like the loop guard in the source). -/
def pruneGo (ps : List Instance) (pos : String) : ℕ → Rule → ℚ → Rule
  | 0, rule, _ => rule
  | fuel + 1, rule, best =>
    match bestImprovement rule ps pos best with
    | none => rule
    | some (r2, m2) => pruneGo ps pos fuel r2 m2

/-- IREPModel.prune_rule (returning the pruned rule instead of mutating). -/
def prune_rule (rule : Rule) (ps : List Instance) (pos : String) : Rule :=
  pruneGo ps pos (rule.get_length + 1) rule (calculate_pruning_metric rule ps pos)

/-! ## Training (IREPModel.train) -/

/-- Python int(len * pruning_ratio): product as an exact rational,
truncated toward zero. -/
def splitIdx (n : ℕ) (frac : ℚ) : ℕ := (qTrunc (qMul (n : ℚ) frac)).toNat

/-- The growing prefix of the current pool. -/
def growSet (insts : List Instance) (frac : ℚ) : List Instance :=
  insts.take (splitIdx insts.length frac)

/-- The pruning suffix of the current pool; when empty, the growing set is
reused as the pruning set. -/
def pruneSetOf (insts : List Instance) (frac : ℚ) : List Instance :=
  let ps := insts.drop (splitIdx insts.length frac)
  if ps.length = 0 then growSet insts frac else ps

/-- The candidate rule of one inner-loop iteration: grow on the growing
set, then prune on the pruning set. -/
def builtRule (ts : List Instance) (pos : String) (mc : ℕ) (frac : ℚ)
    (insts : List Instance) : Rule :=
  prune_rule (grow_rule (growSet insts frac) ts pos mc) (pruneSetOf insts frac) pos

/-- The inner while loop of train for one positive class: while positives
remain, build a candidate rule; stop (discarding it, leaving the pool
untouched) if it is empty or its pruning-set metric does not exceed the
empty-rule baseline, else append it and remove the instances it covers.
Fuel bounds the recursion; every accepted rule covers at least one pool
instance, so pool length + 1 suffices. -/
def innerLoop (ts : List Instance) (pos : String) (mc : ℕ) (frac : ℚ) :
    ℕ → List Rule → List Instance → List Rule × List Instance
  | 0, rules, insts => (rules, insts)
  | fuel + 1, rules, insts =>
    if has_positive_instances insts pos then
      let rule := builtRule ts pos mc frac insts
      if rule.get_length = 0 ∨
          calculate_pruning_metric rule (pruneSetOf insts frac) pos ≤
            calculate_empty_clause_metric (pruneSetOf insts frac) pos then
        (rules, insts)
      else
        innerLoop ts pos mc frac fuel (rules ++ [rule])
          (insts.filter (fun i => !(rule.covers i)))
    else (rules, insts)

/-- The one-vs-rest outer loop of train over all classes but the last,
carrying the rule list and the active pool across classes. -/
def outerLoop (ts : List Instance) (mc : ℕ) (frac : ℚ) :
    List String → List Rule → List Instance → List Rule × List Instance
  | [], rules, insts => (rules, insts)
  | pos :: rest, rules, insts =>
    let st := innerLoop ts pos mc frac (insts.length + 1) rules insts
    outerLoop ts mc frac rest st.1 st.2

/-- First-occurrence list of distinct class labels (Python dict key order
of the count dictionary). -/
def distinctLabels (insts : List Instance) : List String :=
  insts.foldl (fun acc i => if i.classLabel ∈ acc then acc else acc ++ [i.classLabel]) []

/-- Number of instances carrying the given label. -/
def countLabel (insts : List Instance) (l : String) : ℕ :=
  insts.countP (fun i => i.classLabel == l)

/-- Python sorted(distinct_classes, key=count): a stable ascending sort by
frequency.  Stable sorting by a key is a unique function of the input
order, so Mathlib insertion sort (which is stable) is extensionally the
Python sort. -/
def sortClasses (insts : List Instance) : List String :=
  @List.insertionSort String (fun a b => countLabel insts a ≤ countLabel insts b)
    (fun _ _ => Nat.decLe _ _) (distinctLabels insts)

/-- The effective min_coverage: 1 when no parameters are given. -/
def trainMC : Option IREPParameter → ℕ
  | none => 1
  | some p => p.min_coverage

/-- The effective pruning fraction: 0.66 when no parameters are given. -/
def trainFrac : Option IREPParameter → ℚ
  | none => Rat.divInt 66 100
  | some p => p.pruningFraction

/-- IREPModel.train.  The random shuffle is an explicit oracle; counts and
class order are taken from the unshuffled training list, exactly as in the
source (counts are collected before random.shuffle runs).  With fewer than
two distinct classes the method returns before touching the rule list. -/
def IREPModel.train (model : IREPModel) (ts : List Instance)
    (params : Option IREPParameter) (shuffle : List Instance → List Instance) : IREPModel :=
  match sortClasses ts with
  | [] => model
  | [c] => { model with default_class := some c }
  | c1 :: c2 :: rest =>
    let res := outerLoop ts (trainMC params) (trainFrac params)
      ((c1 :: c2 :: rest).dropLast) [] (shuffle ts)
    { model with rules := res.1, default_class := some (List.getLastD rest c2) }

/-! ## Concrete data used by the closed checks -/

/-- Two-rule model for the prediction check. -/
def demoModel : IREPModel :=
  ⟨[⟨"A", [⟨0, "==", .str "u"⟩]⟩, ⟨"B", [⟨0, "==", .str "v"⟩]⟩], some "D"⟩

/-- Instance matched by the second rule of demoModel. -/
def demoInstV : Instance := ⟨[⟨.discrete, .str "v"⟩], "q"⟩

/-- Instance matched by no rule of demoModel. -/
def demoInstW : Instance := ⟨[⟨.discrete, .str "w"⟩], "q"⟩

/-- Discrete instance of class X whose string value "1.5" parses as a
float. -/
def instX : Instance := ⟨[⟨.discrete, .str "1.5"⟩], "X"⟩

/-- Discrete instance of class Y. -/
def instY : Instance := ⟨[⟨.discrete, .str "a"⟩], "Y"⟩

/-- Discrete training set with labels X, Y, X, Y: training learns the rule
IF Att-0 == 1.5 THEN X and default class Y. -/
def tsD : List Instance := [instX, instY, instX, instY]

/-- Continuous instance of class A with value 1.0. -/
def instA : Instance := ⟨[⟨.continuous, .num 1⟩], "A"⟩

/-- Continuous instance of class B with value 10.0. -/
def instB10 : Instance := ⟨[⟨.continuous, .num 10⟩], "B"⟩

/-- Continuous instance of class B with value 11.0. -/
def instB11 : Instance := ⟨[⟨.continuous, .num 11⟩], "B"⟩

/-- Continuous training set with labels A, B, A, B: training learns the
rule IF Att-0 <= 1.0 THEN A and default class B. -/
def tsW : List Instance := [instA, instB10, instA, instB11]

/-- Two-instance pool on which the inner training loop rejects the grown
rule (the growing half contains no negatives, so the grown rule is empty). -/
def poolR : List Instance := [instA, ⟨[⟨.continuous, .num 2⟩], "B"⟩]

/-! ## Wrapper correctness -/

theorem ratDen_cast_ne_zero (a : ℚ) : ((a.den : ℚ)) ≠ 0 := by
  exact_mod_cast a.den_nz

theorem ratNum_eq_mul_den (a : ℚ) : ((a.num : ℚ)) = a * (a.den : ℚ) := by
  have h := Rat.num_div_den a
  rw [div_eq_iff (ratDen_cast_ne_zero a)] at h
  exact h

theorem qAdd_eq (a b : ℚ) : qAdd a b = a + b := by
  rw [qAdd, Rat.divInt_eq_div]
  push_cast
  rw [div_eq_iff (mul_ne_zero (ratDen_cast_ne_zero a) (ratDen_cast_ne_zero b)),
    ratNum_eq_mul_den a, ratNum_eq_mul_den b]
  ring

theorem qMul_eq (a b : ℚ) : qMul a b = a * b := by
  rw [qMul, Rat.divInt_eq_div]
  push_cast
  rw [div_eq_iff (mul_ne_zero (ratDen_cast_ne_zero a) (ratDen_cast_ne_zero b)),
    ratNum_eq_mul_den a, ratNum_eq_mul_den b]
  ring

theorem qDiv_eq (a b : ℚ) : qDiv a b = a / b := by
  rcases eq_or_ne b 0 with rfl | hb
  · have h0 : ((0:ℚ).num) = 0 := rfl
    have h1 : ((0:ℚ).den) = 1 := rfl
    rw [qDiv, h0, h1, mul_zero, Rat.divInt_eq_div]
    push_cast
    simp
  · rw [qDiv, Rat.divInt_eq_div]
    push_cast
    have hbnum : ((b.num : ℚ)) ≠ 0 := by
      rw [ratNum_eq_mul_den b]
      exact mul_ne_zero hb (ratDen_cast_ne_zero b)
    rw [div_eq_div_iff (mul_ne_zero (ratDen_cast_ne_zero a) hbnum) hb,
      ratNum_eq_mul_den a, ratNum_eq_mul_den b]
    ring

theorem qPow_eq (a : ℚ) (n : ℕ) : qPow a n = a ^ n := by
  induction n with
  | zero => rfl
  | succ k ih => rw [qPow, qMul_eq, ih, pow_succ]; ring

/-! ## Prediction (claim C1) -/

theorem predictScan_eq_default (dflt : Option String) (inst : Instance) (rs : List Rule)
    (h : ∀ r ∈ rs, r.covers inst = false) : predictScan dflt inst rs = dflt := by
  induction rs with
  | nil => rfl
  | cons r rest ih =>
    rw [predictScan, h r (by simp)]
    simp only [Bool.false_eq_true, if_false]
    exact ih (fun r hr => h r (by simp [hr]))

theorem predictScan_first_match (dflt : Option String) (inst : Instance) (rs : List Rule)
    (i : ℕ) (hi : i < rs.length) (hc : (rs.get ⟨i, hi⟩).covers inst = true)
    (hprev : ∀ j (hj : j < i), (rs.get ⟨j, hj.trans hi⟩).covers inst = false) :
    predictScan dflt inst rs = some (rs.get ⟨i, hi⟩).class_label := by
  induction rs generalizing i with
  | nil => exact absurd hi (by simp)
  | cons r rest ih =>
    match i with
    | 0 =>
      simp only [List.get] at hc ⊢
      rw [predictScan, hc]
      rfl
    | k + 1 =>
      have h0 : r.covers inst = false := hprev 0 (Nat.succ_pos k)
      rw [predictScan, h0]
      simp only [Bool.false_eq_true, if_false]
      simp only [List.get] at hc ⊢
      exact ih k (Nat.lt_of_succ_lt_succ hi) hc
        (fun j hj => by simpa [List.get] using hprev (j + 1) (Nat.succ_lt_succ hj))

/-- C1: predict scans the stored rule list in order and returns the class
label of the first rule covering the instance; with no covering rule it
returns the default class.  The embedding of predict is a pure function of
the model, so it is deterministic and leaves the model unchanged. -/
theorem predict_spec :
    (∀ (m : IREPModel) (inst : Instance),
      (∀ r ∈ m.rules, r.covers inst = false) → m.predict inst = m.default_class) ∧
    (∀ (m : IREPModel) (inst : Instance) (i : ℕ) (hi : i < m.rules.length),
      (m.rules.get ⟨i, hi⟩).covers inst = true →
      (∀ j (hj : j < i), (m.rules.get ⟨j, hj.trans hi⟩).covers inst = false) →
      m.predict inst = some (m.rules.get ⟨i, hi⟩).class_label) :=
  ⟨fun m inst h => predictScan_eq_default m.default_class inst m.rules h,
   fun m inst i hi hc hprev => predictScan_first_match m.default_class inst m.rules i hi hc hprev⟩

/-- Closed check of predict_spec on a two-rule model: the second rule is
the first match for one instance, and an uncovered instance falls back to
the default class. -/
theorem predict_spec_witness :
    demoModel.predict demoInstV = some "B" ∧ demoModel.predict demoInstW = some "D" := by
  constructor
  · exact predict_spec.2 demoModel demoInstV 1 (by decide) (by decide)
      (fun j hj => by
        have hj0 : j = 0 := by omega
        subst hj0
        exact (by decide : Rule.covers ⟨"A", [⟨0, "==", .str "u"⟩]⟩ demoInstV = false))
  · exact predict_spec.1 demoModel demoInstW (fun r hr => by
      fin_cases hr <;> decide)

/-! ## Condition evaluation (claim C9) -/

/-- C9: satisfies reads the instance value at attribute_index and applies
the stored operator to it and the stored value; every operator other than
"<=", ">" and "==" falls through to the final else branch and yields
false.  In this embedding satisfies is a total pure function, so rule
evaluation never fails on persisted or parsed rules. -/
theorem satisfies_unsupported_operator (c : Condition) (inst : Instance)
    (h1 : c.operator ≠ "<=") (h2 : c.operator ≠ ">") (h3 : c.operator ≠ "==") :
    c.satisfies inst = false := by
  unfold Condition.satisfies
  simp [h1, h2, h3]

/-- Closed check of satisfies_unsupported_operator on the operator "!=",
which Python would route to the final else branch. -/
theorem satisfies_unsupported_operator_witness :
    Condition.satisfies ⟨0, "!=", .str "x"⟩ ⟨[⟨.discrete, .str "x"⟩], "q"⟩ = false :=
  satisfies_unsupported_operator ⟨0, "!=", .str "x"⟩ ⟨[⟨.discrete, .str "x"⟩], "q"⟩
    (by decide) (by decide) (by decide)

/-! ## The inner-loop stopping criterion (claim C3) -/

/-- C3: in an iteration of the inner training loop (positives are still
present), the grown-and-pruned candidate rule is discarded and the loop
ends with the rule list and pool unchanged exactly when the rule has no
conditions or its pruning-set metric does not strictly exceed the
empty-rule baseline; otherwise the rule is appended and exactly the
instances it covers leave the pool. -/
theorem innerLoop_step_spec (ts : List Instance) (pos : String) (mc : ℕ) (frac : ℚ)
    (fuel : ℕ) (rules : List Rule) (insts : List Instance)
    (hpos : has_positive_instances insts pos = true) :
    ((builtRule ts pos mc frac insts).get_length = 0 ∨
        calculate_pruning_metric (builtRule ts pos mc frac insts) (pruneSetOf insts frac) pos ≤
          calculate_empty_clause_metric (pruneSetOf insts frac) pos →
      innerLoop ts pos mc frac (fuel + 1) rules insts = (rules, insts)) ∧
    (¬((builtRule ts pos mc frac insts).get_length = 0 ∨
        calculate_pruning_metric (builtRule ts pos mc frac insts) (pruneSetOf insts frac) pos ≤
          calculate_empty_clause_metric (pruneSetOf insts frac) pos) →
      innerLoop ts pos mc frac (fuel + 1) rules insts =
        innerLoop ts pos mc frac fuel (rules ++ [builtRule ts pos mc frac insts])
          (insts.filter (fun i => !((builtRule ts pos mc frac insts).covers i)))) := by
  constructor
  · intro hstop
    rw [innerLoop]
    simp only [hpos, if_true, hstop, if_pos]
  · intro hgo
    rw [innerLoop]
    simp only [hpos, if_true]
    rw [if_neg hgo]

/-- Closed check of innerLoop_step_spec: on the discrete training set the
first candidate rule is accepted and the covered instances leave the pool;
on poolR the empty grown rule is rejected and the iteration changes
nothing. -/
theorem innerLoop_step_spec_witness :
    innerLoop tsD "X" 1 (Rat.divInt 66 100) 1 [] tsD =
      ([⟨"X", [⟨0, "==", .str "1.5"⟩]⟩], [instY, instY]) ∧
    innerLoop tsD "A" 1 (Rat.divInt 1 2) 1 [] poolR = ([], poolR) := by
  constructor
  · exact ((innerLoop_step_spec tsD "X" 1 (Rat.divInt 66 100) 0 [] tsD (by decide)).2
      (by decide)).trans (by decide)
  · exact (innerLoop_step_spec tsD "A" 1 (Rat.divInt 1 2) 0 [] poolR (by decide)).1 (by decide)

/-! ## Accepted rules strictly shrink the positive pool (claim C7) -/

theorem countP_lt_of_removed {α : Type} (P Q : α → Bool) (l : List α) (x : α)
    (hx : x ∈ l) (hPx : P x = true) (hQx : Q x = true) :
    (l.filter (fun a => !(Q a))).countP P < l.countP P := by
  induction l with
  | nil => cases hx
  | cons a t ih =>
    rcases List.mem_cons.1 hx with rfl | hxt
    · rw [List.filter_cons, List.countP_cons, hQx]
      simp only [Bool.not_true, Bool.false_eq_true, if_false, hPx, if_pos]
      have hle : (t.filter (fun a => !(Q a))).countP P ≤ t.countP P := by
        rw [List.countP_filter]
        exact List.countP_mono_left (fun b _ hb => by simp at hb; exact hb.1)
      omega
    · have hlt := ih hxt
      rw [List.filter_cons, List.countP_cons]
      cases hQa : Q a with
      | true =>
        simp only [hQa, Bool.not_true, Bool.false_eq_true, if_false]
        omega
      | false =>
        simp only [hQa, Bool.not_false, if_true, List.countP_cons]
        omega

theorem pruneSetOf_subset (insts : List Instance) (frac : ℚ) :
    ∀ x ∈ pruneSetOf insts frac, x ∈ insts := by
  intro x hx
  rw [pruneSetOf] at hx
  by_cases h : (insts.drop (splitIdx insts.length frac)).length = 0
  · rw [if_pos h] at hx
    exact (List.take_sublist _ _).subset hx
  · rw [if_neg h] at hx
    exact (List.drop_sublist _ _).subset hx

theorem metric_gt_baseline_covered_pos (rule : Rule) (ps : List Instance) (pos : String)
    (h : calculate_empty_clause_metric ps pos < calculate_pruning_metric rule ps pos) :
    ∃ x ∈ ps, x.classLabel = pos ∧ rule.covers x = true := by
  have hpsne : ps.length ≠ 0 := by
    intro h0
    rw [calculate_pruning_metric, calculate_empty_clause_metric, if_pos h0, if_pos h0] at h
    exact lt_irrefl 0 h
  rw [calculate_pruning_metric, calculate_empty_clause_metric, if_neg hpsne, if_neg hpsne] at h
  have hL : 0 < ps.length := Nat.pos_of_ne_zero hpsne
  have hD2 : (0 : ℤ) < (ps.countP (fun i => i.classLabel == pos) : ℤ) +
      ((ps.length : ℤ) - (ps.countP (fun i => i.classLabel == pos) : ℤ)) := by omega
  have h2 := not_le.2 h
  rw [Rat.divInt_le_divInt hD2 hD2] at h2
  have h3 := not_le.1 h2
  have h4 := lt_of_mul_lt_mul_right h3 (le_of_lt hD2)
  have hppos : 0 < (ps.filter (fun i => rule.covers i)).countP
      (fun i => i.classLabel == pos) := by omega
  obtain ⟨x, hxmem, hxP⟩ := List.countP_pos_iff.1 hppos
  exact ⟨x, (List.mem_filter.1 hxmem).1, by simpa using hxP, (List.mem_filter.1 hxmem).2⟩

/-- C7: whenever the inner loop accepts a rule (its pruning metric strictly
exceeds the empty-rule baseline), the rule covers at least one
positive-class instance of the current pool, and the pool for the next
iteration contains strictly fewer positive-class instances. -/
theorem accepted_rule_shrinks_positives (ts : List Instance) (pos : String) (mc : ℕ)
    (frac : ℚ) (insts : List Instance)
    (hacc : calculate_empty_clause_metric (pruneSetOf insts frac) pos <
      calculate_pruning_metric (builtRule ts pos mc frac insts) (pruneSetOf insts frac) pos) :
    (∃ inst ∈ insts, inst.classLabel = pos ∧ (builtRule ts pos mc frac insts).covers inst = true) ∧
    countLabel (insts.filter (fun i => !((builtRule ts pos mc frac insts).covers i))) pos <
      countLabel insts pos := by
  obtain ⟨x, hxps, hxlbl, hxcov⟩ :=
    metric_gt_baseline_covered_pos (builtRule ts pos mc frac insts) (pruneSetOf insts frac) pos hacc
  have hxinsts : x ∈ insts := pruneSetOf_subset insts frac x hxps
  refine ⟨⟨x, hxinsts, hxlbl, hxcov⟩, ?_⟩
  rw [countLabel, countLabel]
  exact countP_lt_of_removed (fun i => i.classLabel == pos)
    (fun i => (builtRule ts pos mc frac insts).covers i) insts x
    hxinsts (by simpa using hxlbl) hxcov

/-- Closed check of accepted_rule_shrinks_positives on the discrete
training set: the accepted rule covers a positive instance and the
positive count drops. -/
theorem accepted_rule_shrinks_positives_witness :
    (∃ inst ∈ tsD, inst.classLabel = "X" ∧
      (builtRule tsD "X" 1 (Rat.divInt 66 100) tsD).covers inst = true) ∧
    countLabel (tsD.filter (fun i => !((builtRule tsD "X" 1 (Rat.divInt 66 100) tsD).covers i))) "X" <
      countLabel tsD "X" :=
  accepted_rule_shrinks_positives tsD "X" 1 (Rat.divInt 66 100) tsD (by decide)

/-! ## Invariants of the training loops -/

theorem growLoop_label (sample : Instance) (numAttrs : ℕ) (pos : String) (mc : ℕ) :
    ∀ (fuel : ℕ) (rule : Rule) (current : List Instance),
      (growLoop sample numAttrs pos mc fuel rule current).class_label = rule.class_label := by
  intro fuel
  induction fuel with
  | zero => intro rule current; rfl
  | succ k ih =>
    intro rule current
    rw [growLoop]
    split
    · rfl
    · split
      · rfl
      · split
        · rfl
        · exact ih _ _

theorem grow_rule_label (insts ts : List Instance) (pos : String) (mc : ℕ) :
    (grow_rule insts ts pos mc).class_label = pos := by
  cases insts with
  | cons s rest => exact growLoop_label s s.attributeSize pos mc (rest.length + 1 + 1) ⟨pos, []⟩ (s :: rest)
  | nil =>
    cases ts with
    | cons s rest => exact growLoop_label s s.attributeSize pos mc 1 ⟨pos, []⟩ []
    | nil => rfl

theorem bestImprovement_fold_label (rule : Rule) (ps : List Instance) (pos : String)
    (best0 : ℚ) :
    ∀ (l : List ℕ) (acc : Option (Rule × ℚ)),
      (∀ r m, acc = some (r, m) → r.class_label = rule.class_label) →
      ∀ r2 m2,
        l.foldl (fun acc i =>
          let temp := rule.remove_condition i
          let metric := calculate_pruning_metric temp ps pos
          match acc with
          | none => if best0 < metric then some (temp, metric) else none
          | some (br, bm) => if bm < metric then some (temp, metric) else some (br, bm))
          acc = some (r2, m2) →
        r2.class_label = rule.class_label := by
  intro l
  induction l with
  | nil => intro acc hacc r2 m2 h; exact hacc r2 m2 h
  | cons i t ih =>
    intro acc hacc r2 m2 h
    refine ih _ ?_ r2 m2 h
    intro r m hr
    cases acc with
    | none =>
      simp only [] at hr
      split at hr
      · cases hr; rfl
      · cases hr
    | some p =>
      obtain ⟨br, bm⟩ := p
      simp only [] at hr
      split at hr
      · cases hr; rfl
      · cases hr; exact hacc _ _ rfl

theorem bestImprovement_label (rule : Rule) (ps : List Instance) (pos : String)
    (best0 : ℚ) (r2 : Rule) (m2 : ℚ)
    (h : bestImprovement rule ps pos best0 = some (r2, m2)) :
    r2.class_label = rule.class_label := by
  rw [bestImprovement] at h
  exact bestImprovement_fold_label rule ps pos best0 (List.range rule.get_length) none
    (fun r m hrm => by cases hrm) r2 m2 h

theorem pruneGo_label (ps : List Instance) (pos : String) :
    ∀ (fuel : ℕ) (rule : Rule) (best : ℚ),
      (pruneGo ps pos fuel rule best).class_label = rule.class_label := by
  intro fuel
  induction fuel with
  | zero => intro rule best; rfl
  | succ k ih =>
    intro rule best
    rw [pruneGo]
    cases hbi : bestImprovement rule ps pos best with
    | none => rfl
    | some p =>
      obtain ⟨r2, m2⟩ := p
      exact (ih r2 m2).trans (bestImprovement_label rule ps pos best r2 m2 hbi)

theorem prune_rule_label (rule : Rule) (ps : List Instance) (pos : String) :
    (prune_rule rule ps pos).class_label = rule.class_label :=
  pruneGo_label ps pos (rule.get_length + 1) rule _

theorem builtRule_label (ts : List Instance) (pos : String) (mc : ℕ) (frac : ℚ)
    (insts : List Instance) : (builtRule ts pos mc frac insts).class_label = pos :=
  (prune_rule_label _ _ _).trans (grow_rule_label _ _ _ _)

theorem innerLoop_rules_mem (ts : List Instance) (pos : String) (mc : ℕ) (frac : ℚ) :
    ∀ (fuel : ℕ) (rules : List Rule) (insts : List Instance),
      ∀ r ∈ (innerLoop ts pos mc frac fuel rules insts).1,
        r ∈ rules ∨ (r.class_label = pos ∧ 1 ≤ r.conditions.length) := by
  intro fuel
  induction fuel with
  | zero => intro rules insts r hr; exact Or.inl hr
  | succ k ih =>
    intro rules insts r hr
    rw [innerLoop] at hr
    by_cases hp : has_positive_instances insts pos = true
    · simp only [hp, if_true] at hr
      by_cases hstop : (builtRule ts pos mc frac insts).get_length = 0 ∨
          calculate_pruning_metric (builtRule ts pos mc frac insts) (pruneSetOf insts frac) pos ≤
            calculate_empty_clause_metric (pruneSetOf insts frac) pos
      · rw [if_pos hstop] at hr
        exact Or.inl hr
      · rw [if_neg hstop] at hr
        rcases ih _ _ r hr with hmem | hprop
        · rcases List.mem_append.1 hmem with hl | hr1
          · exact Or.inl hl
          · refine Or.inr ⟨?_, ?_⟩
            · rw [List.mem_singleton.1 hr1]
              exact builtRule_label ts pos mc frac insts
            · rw [List.mem_singleton.1 hr1]
              have hne : (builtRule ts pos mc frac insts).get_length ≠ 0 := fun h0 =>
                hstop (Or.inl h0)
              have : (builtRule ts pos mc frac insts).conditions.length ≠ 0 := hne
              omega
        · exact Or.inr hprop
    · simp only [hp, if_false] at hr
      exact Or.inl hr

theorem outerLoop_rules_mem (ts : List Instance) (mc : ℕ) (frac : ℚ) :
    ∀ (classList : List String) (rules : List Rule) (insts : List Instance),
      ∀ r ∈ (outerLoop ts mc frac classList rules insts).1,
        r ∈ rules ∨ ∃ pos ∈ classList, r.class_label = pos ∧ 1 ≤ r.conditions.length := by
  intro classList
  induction classList with
  | nil => intro rules insts r hr; exact Or.inl hr
  | cons pos rest ih =>
    intro rules insts r hr
    rw [outerLoop] at hr
    rcases ih _ _ r hr with hmem | ⟨q, hq, hlbl, hlen⟩
    · rcases innerLoop_rules_mem ts pos mc frac (insts.length + 1) rules insts r hmem with
        hm | ⟨hlbl, hlen⟩
      · exact Or.inl hm
      · exact Or.inr ⟨pos, by simp, hlbl, hlen⟩
    · exact Or.inr ⟨q, by simp [hq], hlbl, hlen⟩

/-! ## Class ordering -/

theorem distinctLabels_fold_nodup (insts : List Instance) :
    ∀ (acc : List String), acc.Nodup →
      (insts.foldl (fun acc i =>
        if i.classLabel ∈ acc then acc else acc ++ [i.classLabel]) acc).Nodup := by
  induction insts with
  | nil => intro acc h; exact h
  | cons i t ih =>
    intro acc h
    rw [List.foldl_cons]
    by_cases hm : i.classLabel ∈ acc
    · rw [if_pos hm]; exact ih acc h
    · rw [if_neg hm]
      refine ih _ ?_
      simp [List.nodup_append, h, hm]

theorem distinctLabels_fold_mem (insts : List Instance) (x : String) :
    ∀ (acc : List String),
      (x ∈ insts.foldl (fun acc i =>
        if i.classLabel ∈ acc then acc else acc ++ [i.classLabel]) acc ↔
        x ∈ acc ∨ ∃ inst ∈ insts, inst.classLabel = x) := by
  induction insts with
  | nil => intro acc; simp
  | cons i t ih =>
    intro acc
    rw [List.foldl_cons]
    by_cases hm : i.classLabel ∈ acc
    · rw [if_pos hm, ih]
      constructor
      · rintro (hx | hx)
        · exact Or.inl hx
        · obtain ⟨inst, hi, he⟩ := hx
          exact Or.inr ⟨inst, by simp [hi], he⟩
      · rintro (hx | ⟨inst, hi, he⟩)
        · exact Or.inl hx
        · rcases List.mem_cons.1 hi with rfl | hit
          · exact Or.inl (he ▸ hm)
          · exact Or.inr ⟨inst, hit, he⟩
    · rw [if_neg hm, ih]
      constructor
      · rintro (hx | hx)
        · rcases List.mem_append.1 hx with hx1 | hx2
          · exact Or.inl hx1
          · exact Or.inr ⟨i, by simp, (List.mem_singleton.1 hx2).symm⟩
        · obtain ⟨inst, hi, he⟩ := hx
          exact Or.inr ⟨inst, by simp [hi], he⟩
      · rintro (hx | ⟨inst, hi, he⟩)
        · exact Or.inl (List.mem_append.2 (Or.inl hx))
        · rcases List.mem_cons.1 hi with rfl | hit
          · exact Or.inl (List.mem_append.2 (Or.inr (by simp [he])))
          · exact Or.inr ⟨inst, hit, he⟩

theorem distinctLabels_nodup (insts : List Instance) : (distinctLabels insts).Nodup :=
  distinctLabels_fold_nodup insts [] List.nodup_nil

theorem mem_distinctLabels (insts : List Instance) (x : String) :
    x ∈ distinctLabels insts ↔ ∃ inst ∈ insts, inst.classLabel = x := by
  rw [distinctLabels, distinctLabels_fold_mem]
  simp

theorem sortClasses_perm (insts : List Instance) :
    (sortClasses insts).Perm (distinctLabels insts) :=
  List.perm_insertionSort _ _

theorem sortClasses_sorted (insts : List Instance) :
    (sortClasses insts).Sorted (fun a b => countLabel insts a ≤ countLabel insts b) := by
  haveI : IsTotal String (fun a b => countLabel insts a ≤ countLabel insts b) :=
    ⟨fun a b => Nat.le_total _ _⟩
  haveI : IsTrans String (fun a b => countLabel insts a ≤ countLabel insts b) :=
    ⟨fun _ _ _ hab hbc => Nat.le_trans hab hbc⟩
  exact List.sorted_insertionSort _ _

theorem getLastD_mem_cons (l : List String) : ∀ (a : String), l.getLastD a ∈ a :: l := by
  induction l with
  | nil => intro a; simp [List.getLastD]
  | cons b t ih =>
    intro a
    rcases List.mem_cons.1 (ih b) with h | h
    · simp [List.getLastD, h]
    · simp [List.getLastD, List.mem_cons.2 (Or.inr h)]

theorem sorted_key_le_getLastD (key : String → ℕ) :
    ∀ (l : List String) (a : String),
      (a :: l).Sorted (fun u v => key u ≤ key v) →
      ∀ x ∈ a :: l, key x ≤ key (l.getLastD a) := by
  intro l
  induction l with
  | nil =>
    intro a _ x hx
    rw [List.mem_singleton.1 hx]
    exact le_refl _
  | cons b t ih =>
    intro a hs x hx
    rw [List.getLastD_cons]
    have hs2 : (b :: t).Sorted (fun u v => key u ≤ key v) := (List.sorted_cons.1 hs).2
    have hab : key a ≤ key b := (List.sorted_cons.1 hs).1 b (by simp)
    rcases List.mem_cons.1 hx with rfl | hx2
    · calc key x ≤ key b := hab
        _ ≤ key (t.getLastD b) := ih b hs2 b (by simp)
    · exact ih b hs2 x hx2

theorem dropLast_append_getLastD (l : List String) :
    ∀ (a : String), (a :: l).dropLast ++ [l.getLastD a] = a :: l := by
  induction l with
  | nil => intro a; simp [List.getLastD]
  | cons b t ih =>
    intro a
    rw [List.getLastD_cons, List.dropLast_cons₂, List.cons_append, ih b]

theorem train_eq_of_sortClasses (m : IREPModel) (ts : List Instance)
    (params : Option IREPParameter) (sh : List Instance → List Instance)
    (c1 c2 : String) (rest : List String) (hsc : sortClasses ts = c1 :: c2 :: rest) :
    IREPModel.train m ts params sh = { m with
      rules := (outerLoop ts (trainMC params) (trainFrac params)
        ((c1 :: c2 :: rest).dropLast) [] (sh ts)).1,
      default_class := some (List.getLastD rest c2) } := by
  rw [IREPModel.train, hsc]

theorem train_default_properties (m : IREPModel) (ts : List Instance)
    (params : Option IREPParameter) (sh : List Instance → List Instance)
    (h2 : 2 ≤ (distinctLabels ts).length) :
    ∃ d, (IREPModel.train m ts params sh).default_class = some d ∧
      d ∈ distinctLabels ts ∧
      (∀ l ∈ distinctLabels ts, countLabel ts l ≤ countLabel ts d) ∧
      (∀ r ∈ (IREPModel.train m ts params sh).rules,
        r.class_label ≠ d ∧ 1 ≤ r.conditions.length) := by
  have hlen : (sortClasses ts).length = (distinctLabels ts).length :=
    (sortClasses_perm ts).length_eq
  obtain ⟨c1, c2, rest, hsc⟩ : ∃ c1 c2 rest, sortClasses ts = c1 :: c2 :: rest := by
    cases hx : sortClasses ts with
    | nil => rw [hx] at hlen; simp at hlen; omega
    | cons c1 t1 =>
      cases t1 with
      | nil => rw [hx] at hlen; simp at hlen; omega
      | cons c2 rest => exact ⟨c1, c2, rest, rfl⟩
  have htr := train_eq_of_sortClasses m ts params sh c1 c2 rest hsc
  refine ⟨List.getLastD rest c2, ?_, ?_, ?_, ?_⟩
  · rw [htr]
  · have hmem : List.getLastD rest c2 ∈ c1 :: c2 :: rest :=
      List.mem_cons.2 (Or.inr (getLastD_mem_cons rest c2))
    exact (sortClasses_perm ts).mem_iff.1 (hsc ▸ hmem)
  · intro l hl
    have hls : l ∈ sortClasses ts := (sortClasses_perm ts).mem_iff.2 hl
    have hsorted := sortClasses_sorted ts
    rw [hsc] at hsorted hls
    have hle := sorted_key_le_getLastD (countLabel ts) (c2 :: rest) c1 hsorted l hls
    rw [List.getLastD_cons] at hle
    exact hle
  · intro r hr
    rw [htr] at hr
    rcases outerLoop_rules_mem ts (trainMC params) (trainFrac params)
        ((c1 :: c2 :: rest).dropLast) [] (sh ts) r hr with hmem | ⟨q, hq, hlbl, hlen1⟩
    · cases hmem
    · refine ⟨?_, hlen1⟩
      have hnd : (c1 :: c2 :: rest).Nodup :=
        hsc ▸ ((sortClasses_perm ts).nodup_iff.2 (distinctLabels_nodup ts))
      have hdecomp : (c1 :: c2 :: rest).dropLast ++ [List.getLastD rest c2] =
          c1 :: c2 :: rest := by
        have h1 := dropLast_append_getLastD (c2 :: rest) c1
        rw [List.getLastD_cons] at h1
        exact h1
      rw [← hdecomp] at hnd
      have hdisj := (List.nodup_append.1 hnd).2.2
      intro heq
      rw [hlbl] at heq
      exact hdisj hq (by simp [heq])

theorem predictScan_covered (dflt : Option String) (inst : Instance) :
    ∀ (rs : List Rule), (∃ r ∈ rs, r.covers inst = true) →
      ∃ r ∈ rs, r.covers inst = true ∧ predictScan dflt inst rs = some r.class_label := by
  intro rs
  induction rs with
  | nil => rintro ⟨r, hr, _⟩; cases hr
  | cons a t ih =>
    rintro ⟨r, hr, hcov⟩
    cases ha : a.covers inst with
    | true =>
      exact ⟨a, by simp, ha, by rw [predictScan, ha]; rfl⟩
    | false =>
      have hrt : r ∈ t := by
        rcases List.mem_cons.1 hr with rfl | h
        · rw [ha] at hcov; cases hcov
        · exact h
      obtain ⟨r0, hr0, hcov0, hscan⟩ := ih ⟨r, hrt, hcov⟩
      refine ⟨r0, by simp [hr0], hcov0, ?_⟩
      rw [predictScan, ha]
      simpa using hscan

/-! ## Default class and rule labels (claim C4) -/

/-- C4: with at least two distinct class labels in the training set, the
trained default class is one of the training labels, its frequency is
maximal among all training labels, and no learned rule targets it (the
most frequent class never gets a one-vs-rest pass). -/
theorem train_default_class_most_frequent (m : IREPModel) (ts : List Instance)
    (params : Option IREPParameter) (sh : List Instance → List Instance)
    (h2 : 2 ≤ (distinctLabels ts).length) :
    ∃ d, (IREPModel.train m ts params sh).default_class = some d ∧
      d ∈ distinctLabels ts ∧
      (∀ l ∈ distinctLabels ts, countLabel ts l ≤ countLabel ts d) ∧
      (∀ r ∈ (IREPModel.train m ts params sh).rules, r.class_label ≠ d) := by
  obtain ⟨d, hdef, hmem, hmax, hrules⟩ := train_default_properties m ts params sh h2
  exact ⟨d, hdef, hmem, hmax, fun r hr => (hrules r hr).1⟩

/-- Closed check of train_default_class_most_frequent on the discrete
training set, whose most frequent label ties and resolves to Y. -/
theorem train_default_class_most_frequent_witness :
    ∃ d, (IREPModel.train ⟨[], none⟩ tsD none id).default_class = some d ∧
      d ∈ distinctLabels tsD ∧
      (∀ l ∈ distinctLabels tsD, countLabel tsD l ≤ countLabel tsD d) ∧
      (∀ r ∈ (IREPModel.train ⟨[], none⟩ tsD none id).rules, r.class_label ≠ d) :=
  train_default_class_most_frequent ⟨[], none⟩ tsD none id (by decide)

/-! ## Learned rules have at least one condition (claim C10) -/

/-- C10 counterexample: the claim fails for an engine that already holds a
zero-condition rule, because train returns early on a single-class
training set without resetting the rule list, so the zero-condition rule
is still present at the end of train. -/
theorem train_keeps_stale_empty_rule :
    ∃ r ∈ (IREPModel.train ⟨[⟨"B", []⟩], some "B"⟩
      [⟨[⟨.discrete, .str "w"⟩], "C"⟩] none id).rules, r.conditions.length = 0 := by
  decide

/-- C10 amended: whenever the training set carries at least two distinct
labels (so train resets the rule list and actually learns), every rule in
the final list has at least one condition, and predict can only return the
default class on an instance no learned rule covers. -/
theorem train_rules_nonempty_conditions (m : IREPModel) (ts : List Instance)
    (params : Option IREPParameter) (sh : List Instance → List Instance)
    (h2 : 2 ≤ (distinctLabels ts).length) :
    (∀ r ∈ (IREPModel.train m ts params sh).rules, 1 ≤ r.conditions.length) ∧
    (∀ inst, (IREPModel.train m ts params sh).predict inst =
        (IREPModel.train m ts params sh).default_class →
      ∀ r ∈ (IREPModel.train m ts params sh).rules, r.covers inst = false) := by
  obtain ⟨d, hdef, _, _, hrules⟩ := train_default_properties m ts params sh h2
  refine ⟨fun r hr => (hrules r hr).2, ?_⟩
  intro inst hpred r hr
  cases hc : r.covers inst with
  | false => rfl
  | true =>
    obtain ⟨r0, hr0, hcov0, hscan⟩ :=
      predictScan_covered (IREPModel.train m ts params sh).default_class inst
        (IREPModel.train m ts params sh).rules ⟨r, hr, hc⟩
    rw [IREPModel.predict, hscan, hdef] at hpred
    exact absurd (Option.some.inj hpred) (hrules r0 hr0).1

/-- Closed check of train_rules_nonempty_conditions on the discrete
training set: the learned rule has a condition, and the instance predicted
as the default class is covered by no learned rule. -/
theorem train_rules_nonempty_conditions_witness :
    1 ≤ (Rule.mk "X" [⟨0, "==", .str "1.5"⟩]).conditions.length ∧
    Rule.covers ⟨"X", [⟨0, "==", .str "1.5"⟩]⟩ instY = false := by
  have h := train_rules_nonempty_conditions ⟨[], none⟩ tsD none id (by decide)
  constructor
  · exact h.1 ⟨"X", [⟨0, "==", .str "1.5"⟩]⟩ (by decide)
  · exact h.2 instY (by decide) ⟨"X", [⟨0, "==", .str "1.5"⟩]⟩ (by decide)

/-! ## Degenerate training input (claim C5) -/

/-- C5 counterexample: the claim fails for an engine that was already
trained, because the early return on fewer than two distinct classes does
not reset the rule list, so training such an engine on a one-label set
does not yield zero rules. -/
theorem train_singleClass_keeps_stale_rules :
    distinctLabels [⟨[⟨.discrete, .str "v"⟩], "A"⟩] = ["A"] ∧
    (IREPModel.train ⟨[⟨"Z", [⟨0, "==", .str "v"⟩]⟩], some "Z"⟩
      [⟨[⟨.discrete, .str "v"⟩], "A"⟩] none id).rules ≠ [] := by
  decide

/-- C5 amended: for an engine whose rule list is empty (in particular a
freshly constructed one), training on a set with exactly one distinct
label yields zero rules and that label as default class, and training on
zero instances leaves the model unchanged (zero rules, default class still
unset for a fresh engine). -/
theorem train_degenerate_fresh (m : IREPModel) (ts : List Instance)
    (params : Option IREPParameter) (sh : List Instance → List Instance)
    (hrules : m.rules = []) :
    (∀ c, distinctLabels ts = [c] →
      (IREPModel.train m ts params sh).rules = [] ∧
      (IREPModel.train m ts params sh).default_class = some c) ∧
    (ts = [] → IREPModel.train m ts params sh = m) := by
  constructor
  · intro c hc
    have hsc : sortClasses ts = [c] := by
      rw [sortClasses, hc]
      rfl
    rw [IREPModel.train, hsc]
    exact ⟨hrules, rfl⟩
  · intro hts
    subst hts
    rfl

/-- Closed check of train_degenerate_fresh: a fresh engine trained on a
one-label set has zero rules and that label as default; trained on the
empty set it is unchanged. -/
theorem train_degenerate_fresh_witness :
    ((IREPModel.train ⟨[], none⟩ [⟨[⟨.discrete, .str "v"⟩], "A"⟩] none id).rules = [] ∧
      (IREPModel.train ⟨[], none⟩ [⟨[⟨.discrete, .str "v"⟩], "A"⟩] none id).default_class =
        some "A") ∧
    IREPModel.train ⟨[], none⟩ [] none id = ⟨[], none⟩ := by
  constructor
  · exact (train_degenerate_fresh ⟨[], none⟩ [⟨[⟨.discrete, .str "v"⟩], "A"⟩] none id rfl).1
      "A" (by decide)
  · exact (train_degenerate_fresh ⟨[], none⟩ [] none id rfl).2 rfl

/-! ## Empty-rule rendering and persistence (claim C8) -/

/-- C8 counterexample: a model holding a zero-condition rule is saved and
re-loaded, and the loaded model no longer contains that rule (its line
fails to parse and is silently skipped), refuting the round-trip half of
the claim. -/
theorem empty_rule_dropped_on_load :
    ruleToString ⟨"A", ([] : List Condition)⟩ = "IF  THEN A" ∧
    IREPModel.saveModel ⟨[⟨"A", []⟩], some "B"⟩ = "DefaultClass:B\nIF  THEN A\n" ∧
    (IREPModel.loadModel ⟨[], none⟩ (IREPModel.saveModel ⟨[⟨"A", []⟩], some "B"⟩)).rules = [] := by
  decide

/-- C8 amended: a zero-condition rule renders exactly as
"IF  THEN class_label" with an empty left side, but this format does not
survive persistence: loading a just-saved model containing such a rule
drops it (the empty condition clause parses to no rule and the line is
skipped), as the concrete save/load in the second conjunct shows. -/
theorem empty_rule_renders_but_is_dropped :
    (∀ lbl : String, ruleToString ⟨lbl, ([] : List Condition)⟩ = "IF  THEN " ++ lbl) ∧
    parseRule ("IF  THEN A") = none ∧
    IREPModel.loadModel ⟨[], none⟩ (IREPModel.saveModel ⟨[⟨"A", []⟩], some "B"⟩) =
      ⟨[], some "B"⟩ := by
  refine ⟨?_, by decide, by decide⟩
  intro lbl
  cases lbl with
  | mk d => rfl

/-! ## Persistence round trip (claim C2) -/

/-- Spot checks of the float() embedding against CPython: the special
words (any case, optional sign), exponent and underscore forms, whitespace
stripping, bare-dot forms, and the shapes float() rejects. -/
theorem parseFloat_examples :
    parseFloat ("inf") = some .inf ∧
    parseFloat ("-Infinity") = some .ninf ∧
    parseFloat ("NaN") = some .nan ∧
    parseFloat ("1e5") = some (.num 100000) ∧
    parseFloat ("1_0") = some (.num 10) ∧
    parseFloat (" 2.5" ++ "\t") = some (.num (Rat.divInt 5 2)) ∧
    parseFloat ("1.") = some (.num 1) ∧
    parseFloat (".5") = some (.num (Rat.divInt 1 2)) ∧
    parseFloat ("-1.5e-2") = some (.num (Rat.divInt (-3) 200)) ∧
    parseFloat ("1_") = none ∧
    parseFloat ("_1") = none ∧
    parseFloat ("1__0") = none ∧
    parseFloat (".") = none ∧
    parseFloat ("") = none ∧
    parseFloat ("1e") = none ∧
    parseFloat ("e5") = none ∧
    parseFloat ("1.2.3") = none ∧
    parseFloat ("+-1") = none := by
  decide

theorem isPrefixC_cons_ne_nil (c : Char) (p l : List Char)
    (h : isPrefixC (c :: p) l = true) : l ≠ [] := by
  cases l with
  | nil => cases h
  | cons a t => exact List.cons_ne_nil a t

theorem loadLine_default (m : IREPModel) (d : String)
    (hdline : trimStr ("DefaultClass:" ++ d) = "DefaultClass:" ++ d ∧
      startsWithStr ("DefaultClass:" ++ d) ("DefaultClass:") = true ∧
      (splitOnStr ("DefaultClass:" ++ d) (":")).getD 1 "" = d) :
    loadLine m ("DefaultClass:" ++ d) = { m with default_class := some d } := by
  obtain ⟨htrim, hstart, hsplit⟩ := hdline
  rw [loadLine]
  simp only [htrim]
  rw [if_neg (by
    intro h0
    exact isPrefixC_cons_ne_nil _ _ _ hstart (by
      cases hx : ("DefaultClass:" ++ d).data with
      | nil => rfl
      | cons a t => rw [hx] at h0; cases h0))]
  rw [if_pos hstart, hsplit]

theorem loadLine_rule (m : IREPModel) (r : Rule)
    (hline : (trimStr (ruleToString r) = ruleToString r ∧
      startsWithStr (ruleToString r) ("DefaultClass:") = false ∧
      startsWithStr (ruleToString r) ("IF ") = true) ∧
      parseRule (ruleToString r) = some r) :
    loadLine m (ruleToString r) = { m with rules := m.rules ++ [r] } := by
  obtain ⟨⟨htrim, hnd, hstart⟩, hparse⟩ := hline
  rw [loadLine]
  simp only [htrim]
  rw [if_neg (by
    intro h0
    exact isPrefixC_cons_ne_nil _ _ _ hstart (by
      cases hx : (ruleToString r).data with
      | nil => rfl
      | cons a t => rw [hx] at h0; cases h0))]
  rw [if_neg (by rw [hnd]; exact Bool.false_ne_true), if_pos hstart, hparse]

theorem loadModel_fold_rules (rs : List Rule)
    (hl : ∀ r ∈ rs, (trimStr (ruleToString r) = ruleToString r ∧
      startsWithStr (ruleToString r) ("DefaultClass:") = false ∧
      startsWithStr (ruleToString r) ("IF ") = true) ∧
      parseRule (ruleToString r) = some r) :
    ∀ (acc : IREPModel),
      (rs.map ruleToString).foldl loadLine acc = { acc with rules := acc.rules ++ rs } := by
  induction rs with
  | nil => intro acc; simp
  | cons r t ih =>
    intro acc
    rw [List.map_cons, List.foldl_cons, loadLine_rule acc r (hl r (by simp))]
    rw [ih (fun q hq => hl q (by simp [hq]))]
    simp

theorem foldr_splitLines_clean (cs : List Char)
    (hcs : ∀ c ∈ cs, ¬ c = '\n' ∧ ¬ c = '\r') :
    ∀ (prev : Option Char) (h : List Char) (t : List (List Char)),
      cs.foldr splitLinesStep (prev, h :: t) =
        ((match cs with | [] => prev | c :: _ => some c), (cs ++ h) :: t) := by
  induction cs with
  | nil => intro prev h t; rfl
  | cons c cs ih =>
    intro prev h t
    rw [List.foldr_cons, ih (fun x hx => hcs x (by simp [hx]))]
    have hc := hcs c (by simp)
    simp only [splitLinesStep, if_neg hc.1, if_neg hc.2, List.cons_append]

theorem foldl_file_data (ls : List String) :
    ∀ (a : String), (ls.foldl (fun acc l => acc ++ l ++ "\n") a).data =
      a.data ++ (ls.map (fun l => l.data ++ ['\n'])).flatten := by
  induction ls with
  | nil => intro a; simp
  | cons l t ih =>
    intro a
    rw [List.foldl_cons, ih, List.map_cons, List.flatten_cons]
    simp [String.data_append]

theorem splitLinesStep_newline (st : Option Char × List (List Char)) :
    splitLinesStep ('\n') st = (some ('\n'), [] :: st.2) := by
  simp [splitLinesStep]

theorem foldr_file_clean (ls : List String) (hclean : ∀ l ∈ ls, lineClean l) :
    ((ls.map (fun l => l.data ++ ['\n'])).flatten.foldr splitLinesStep (none, [[]])).2 =
      ls.map String.data ++ [[]] := by
  induction ls with
  | nil => rfl
  | cons l t ih =>
    rw [List.map_cons, List.flatten_cons, List.foldr_append, List.foldr_append,
      List.foldr_cons, List.foldr_nil, splitLinesStep_newline]
    rw [ih (fun x hx => hclean x (by simp [hx]))]
    rw [foldr_splitLines_clean l.data (hclean l (by simp))]
    simp

theorem splitLinesPy_fileOfLines (ls : List String) (hclean : ∀ l ∈ ls, lineClean l) :
    splitLinesPy (fileOfLines ls).data = ls.map String.data := by
  have hd : (fileOfLines ls).data = (ls.map (fun l => l.data ++ ['\n'])).flatten := by
    rw [fileOfLines, foldl_file_data]
    rfl
  rw [splitLinesPy, hd, foldr_file_clean ls hclean]
  rw [List.getLast?_concat, List.dropLast_concat]

theorem loadModel_eq_fold (m : IREPModel) (ls : List String)
    (hclean : ∀ l ∈ ls, lineClean l) :
    IREPModel.loadModel m (fileOfLines ls) = ls.foldl loadLine { m with rules := [] } := by
  rw [IREPModel.loadModel, splitLinesPy_fileOfLines ls hclean, List.map_map]
  have hmk : (String.mk ∘ String.data) = id := funext (fun l => by cases l; rfl)
  rw [hmk, List.map_id]

/-- C2 amended: save followed by load restores the model exactly (and so
predictions agree everywhere, in particular on the training set) whenever
every serialized line re-parses to its original content: each line is
newline-free (so the written file has exactly these lines) and
strip-stable, the default class is set and its line re-parses to it, and
every rule line parses back to an equal rule.  The counterexample shows
why the re-parse hypothesis is needed: discrete string values that parse
as floats (any form float() accepts) change type on load and break
predictions. -/
theorem saveLoad_roundtrip_of_reparsable (m0 m : IREPModel) (d : String)
    (hd : m.default_class = some d)
    (hdline : lineClean ("DefaultClass:" ++ d) ∧
      trimStr ("DefaultClass:" ++ d) = "DefaultClass:" ++ d ∧
      startsWithStr ("DefaultClass:" ++ d) ("DefaultClass:") = true ∧
      (splitOnStr ("DefaultClass:" ++ d) (":")).getD 1 "" = d)
    (hlines : ∀ r ∈ m.rules, (lineClean (ruleToString r) ∧
      trimStr (ruleToString r) = ruleToString r ∧
      startsWithStr (ruleToString r) ("DefaultClass:") = false ∧
      startsWithStr (ruleToString r) ("IF ") = true) ∧
      parseRule (ruleToString r) = some r) :
    IREPModel.loadModel m0 (IREPModel.saveModel m) = m ∧
    ∀ inst, (IREPModel.loadModel m0 (IREPModel.saveModel m)).predict inst = m.predict inst := by
  have hclean : ∀ l ∈ saveLines m, lineClean l := by
    intro l hl
    rw [saveLines] at hl
    rcases List.mem_cons.1 hl with h1 | h2
    · subst h1
      rw [hd]
      exact hdline.1
    · obtain ⟨r, hr, hrl⟩ := List.mem_map.1 h2
      subst hrl
      exact (hlines r hr).1.1
  have hmain : IREPModel.loadModel m0 (IREPModel.saveModel m) = m := by
    rw [IREPModel.saveModel, loadModel_eq_fold m0 (saveLines m) hclean]
    rw [saveLines, hd]
    rw [show defaultClassStr (some d) = d from rfl]
    rw [List.foldl_cons,
      loadLine_default _ d ⟨hdline.2.1, hdline.2.2.1, hdline.2.2.2⟩]
    rw [loadModel_fold_rules m.rules (fun r hr =>
      ⟨⟨(hlines r hr).1.2.1, (hlines r hr).1.2.2.1, (hlines r hr).1.2.2.2⟩,
        (hlines r hr).2⟩)]
    simp only [List.nil_append]
    cases m with
    | mk rules dc =>
      simp only [] at hd
      rw [hd]
  exact ⟨hmain, fun inst => by rw [hmain]⟩

/-- Closed check of saveLoad_roundtrip_of_reparsable on the model learned
from the continuous training set (rule IF Att-0 <= 1.0 THEN A, default B):
all lines re-parse, and load of save restores the model. -/
theorem saveLoad_roundtrip_of_reparsable_witness :
    IREPModel.loadModel ⟨[], none⟩
      (IREPModel.saveModel ⟨[⟨"A", [⟨0, "<=", .num 1⟩]⟩], some "B"⟩) =
      ⟨[⟨"A", [⟨0, "<=", .num 1⟩]⟩], some "B"⟩ :=
  (saveLoad_roundtrip_of_reparsable ⟨[], none⟩ ⟨[⟨"A", [⟨0, "<=", .num 1⟩]⟩], some "B"⟩ "B"
    rfl (by decide)
    (fun r hr => by
      have hr1 : r = ⟨"A", [⟨0, "<=", .num 1⟩]⟩ := List.mem_singleton.1 hr
      subst hr1
      exact ⟨by decide, by decide⟩)).1

/-- C2 counterexample: a model trained on the discrete training set learns
the rule IF Att-0 == 1.5 THEN X with the string value "1.5"; saving and
re-loading turns the value into the float 1.5, the == comparison against
the string attribute value fails, and the prediction on the training
instance instX changes from X to the default class Y. -/
theorem saveLoad_breaks_on_numeric_string_value :
    instX ∈ tsD ∧
    (IREPModel.train ⟨[], none⟩ tsD none id).predict instX = some "X" ∧
    (IREPModel.loadModel ⟨[], none⟩
      (IREPModel.saveModel (IREPModel.train ⟨[], none⟩ tsD none id))).predict instX =
      some "Y" := by
  decide

/-! ## FOIL gain (claim C6)

The executable grow loop scores candidates with foil_gain_t, the image of
the real-valued calculate_foil_gain under the strictly monotone map
x to 2 ^ x (bottom to 0).  The lemmas here prove the two scores induce the
same comparisons, which makes the executable embedding faithful. -/

theorem epsQ_cast : ((epsQ : ℚ) : ℝ) = epsR := by
  rw [epsQ, epsR, Rat.divInt_eq_div]
  push_cast
  norm_num

theorem countP_filter_le {α : Type} (l : List α) (P Q : α → Bool) :
    (l.filter Q).countP P ≤ l.countP P := by
  rw [List.countP_filter]
  exact List.countP_mono_left (fun b _ hb => by simp at hb; exact hb.1)

theorem epsQ_pos : (0 : ℚ) < epsQ := by
  rw [epsQ, Rat.divInt_eq_div]
  norm_num

theorem epsR_pos : (0 : ℝ) < epsR := by
  rw [epsR]
  norm_num

/-- Order correspondence at the heart of the transform: for counts with
1 <= p1 <= p0, the real FOIL gain body is nonpositive exactly when its
transformed rational score is at most 1. -/
theorem gain_trans_nonpos (p0 n0 p1 n1 : ℕ) (hp1 : 1 ≤ p1) (hp0 : p1 ≤ p0) :
    ((p1 : ℝ) * ((-Real.logb 2 ((p0 : ℝ) / ((p0 : ℝ) + (n0 : ℝ) + epsR))) -
      (-Real.logb 2 ((p1 : ℝ) / ((p1 : ℝ) + (n1 : ℝ) + epsR)))) ≤ 0) ↔
    qPow (qDiv (qDiv (p1 : ℚ) (qAdd (qAdd (p1 : ℚ) (n1 : ℚ)) epsQ))
      (qDiv (p0 : ℚ) (qAdd (qAdd (p0 : ℚ) (n0 : ℚ)) epsQ))) p1 ≤ 1 := by
  have hp1Q : (0 : ℚ) < (p1 : ℚ) := by exact_mod_cast hp1
  have hp0Q : (0 : ℚ) < (p0 : ℚ) := by exact_mod_cast (lt_of_lt_of_le hp1 hp0)
  have hdbQ : (0 : ℚ) < (p1 : ℚ) + (n1 : ℚ) + epsQ :=
    add_pos_of_nonneg_of_pos (by positivity) epsQ_pos
  have hdaQ : (0 : ℚ) < (p0 : ℚ) + (n0 : ℚ) + epsQ :=
    add_pos_of_nonneg_of_pos (by positivity) epsQ_pos
  have hbQ : (0 : ℚ) < (p1 : ℚ) / ((p1 : ℚ) + (n1 : ℚ) + epsQ) := div_pos hp1Q hdbQ
  have haQ : (0 : ℚ) < (p0 : ℚ) / ((p0 : ℚ) + (n0 : ℚ) + epsQ) := div_pos hp0Q hdaQ
  have hp1R : (0 : ℝ) < (p1 : ℝ) := by exact_mod_cast hp1
  have hp0R : (0 : ℝ) < (p0 : ℝ) := by exact_mod_cast (lt_of_lt_of_le hp1 hp0)
  have hdbR : (0 : ℝ) < (p1 : ℝ) + (n1 : ℝ) + epsR :=
    add_pos_of_nonneg_of_pos (by positivity) epsR_pos
  have hdaR : (0 : ℝ) < (p0 : ℝ) + (n0 : ℝ) + epsR :=
    add_pos_of_nonneg_of_pos (by positivity) epsR_pos
  have hbR : (0 : ℝ) < (p1 : ℝ) / ((p1 : ℝ) + (n1 : ℝ) + epsR) := div_pos hp1R hdbR
  have haR : (0 : ℝ) < (p0 : ℝ) / ((p0 : ℝ) + (n0 : ℝ) + epsR) := div_pos hp0R hdaR
  have hcast_b : (((p1 : ℚ) / ((p1 : ℚ) + (n1 : ℚ) + epsQ) : ℚ) : ℝ) =
      (p1 : ℝ) / ((p1 : ℝ) + (n1 : ℝ) + epsR) := by
    push_cast [epsQ_cast]
    rfl
  have hcast_a : (((p0 : ℚ) / ((p0 : ℚ) + (n0 : ℚ) + epsQ) : ℚ) : ℝ) =
      (p0 : ℝ) / ((p0 : ℝ) + (n0 : ℝ) + epsR) := by
    push_cast [epsQ_cast]
    rfl
  rw [qPow_eq, qDiv_eq, qDiv_eq, qDiv_eq, qAdd_eq, qAdd_eq, qAdd_eq, qAdd_eq]
  rw [pow_le_one_iff_of_nonneg (le_of_lt (div_pos hbQ haQ)) (by omega)]
  rw [div_le_one haQ]
  rw [neg_sub_neg]
  constructor
  · intro h
    have h1 : Real.logb 2 ((p1 : ℝ) / ((p1 : ℝ) + (n1 : ℝ) + epsR)) -
        Real.logb 2 ((p0 : ℝ) / ((p0 : ℝ) + (n0 : ℝ) + epsR)) ≤ 0 := by nlinarith
    have h2 := (Real.logb_le_logb one_lt_two hbR haR).1 (by linarith)
    rw [← hcast_b, ← hcast_a] at h2
    exact_mod_cast h2
  · intro h
    have h2 : (p1 : ℝ) / ((p1 : ℝ) + (n1 : ℝ) + epsR) ≤
        (p0 : ℝ) / ((p0 : ℝ) + (n0 : ℝ) + epsR) := by
      rw [← hcast_b, ← hcast_a]
      exact_mod_cast h
    have h3 := (Real.logb_le_logb one_lt_two hbR haR).2 h2
    nlinarith

/-- The real FOIL gain is nonpositive (including -inf) exactly when the
transformed score is at most 1. -/
theorem foil_gain_nonpos_iff (insts : List Instance) (cond : Condition) (pos : String)
    (mc : ℕ) :
    calculate_foil_gain insts cond pos mc ≤ 0 ↔ foil_gain_t insts cond pos mc ≤ 1 := by
  simp only [calculate_foil_gain, foil_gain_t]
  by_cases h1 : (insts.filter (fun i => cond.satisfies i)).length < mc
  · simp [h1]
  · simp only [h1, if_false]
    by_cases h2 : (insts.filter (fun i => cond.satisfies i)).countP
        (fun i => i.classLabel == pos) = 0
    · simp [h2]
    · simp only [h2, if_false]
      rw [show (0 : WithBot ℝ) = (((0 : ℝ) : WithBot ℝ)) from rfl, WithBot.coe_le_coe]
      exact gain_trans_nonpos
        (insts.countP (fun i => i.classLabel == pos))
        (insts.length - insts.countP (fun i => i.classLabel == pos))
        ((insts.filter (fun i => cond.satisfies i)).countP (fun i => i.classLabel == pos))
        ((insts.filter (fun i => cond.satisfies i)).length -
          (insts.filter (fun i => cond.satisfies i)).countP (fun i => i.classLabel == pos))
        (Nat.one_le_iff_ne_zero.2 h2)
        (countP_filter_le insts (fun i => i.classLabel == pos) (fun i => cond.satisfies i))

theorem bestCandidate_fold_le_one (current : List Instance) (pos : String) (mc : ℕ) :
    ∀ (l : List Condition),
      (∀ c ∈ l, foil_gain_t current c pos mc ≤ 1) →
      ∀ (acc : Option Condition × ℚ), acc.2 ≤ 1 →
        (l.foldl (fun best c =>
          let g := foil_gain_t current c pos mc
          if best.2 < g then (some c, g) else best) acc).2 ≤ 1 := by
  intro l
  induction l with
  | nil => intro _ acc hacc; exact hacc
  | cons c t ih =>
    intro h acc hacc
    rw [List.foldl_cons]
    refine ih (fun q hq => h q (by simp [hq])) _ ?_
    simp only []
    split
    · exact h c (by simp)
    · exact hacc

theorem bestCandidate_snd_le_one (current : List Instance) (sample : Instance)
    (numAttrs : ℕ) (pos : String) (mc : ℕ)
    (h : ∀ c ∈ candidateConds current sample numAttrs, foil_gain_t current c pos mc ≤ 1) :
    (bestCandidate current sample numAttrs pos mc).2 ≤ 1 := by
  rw [bestCandidate]
  exact bestCandidate_fold_le_one current pos mc (candidateConds current sample numAttrs) h
    (none, 0) (by norm_num)

/-- C6: the FOIL gain is minus infinity exactly when the candidate covers
fewer than min_coverage instances or covers no positive instance;
otherwise it equals p1 * ((-log2(p0 / (p0 + n0 + eps))) -
(-log2(p1 / (p1 + n1 + eps)))) with the counts taken before and after
filtering by the candidate; and an iteration of the grow loop appends no
condition when no enumerated candidate has strictly positive gain. -/
theorem foil_gain_spec :
    (∀ (insts : List Instance) (cond : Condition) (pos : String) (mc : ℕ),
      calculate_foil_gain insts cond pos mc = ⊥ ↔
        ((insts.filter (fun i => cond.satisfies i)).length < mc ∨
          (insts.filter (fun i => cond.satisfies i)).countP
            (fun i => i.classLabel == pos) = 0)) ∧
    (∀ (insts : List Instance) (cond : Condition) (pos : String) (mc : ℕ),
      ¬ ((insts.filter (fun i => cond.satisfies i)).length < mc ∨
          (insts.filter (fun i => cond.satisfies i)).countP
            (fun i => i.classLabel == pos) = 0) →
      calculate_foil_gain insts cond pos mc =
        ((((insts.filter (fun i => cond.satisfies i)).countP
              (fun i => i.classLabel == pos) : ℝ) *
            ((-Real.logb 2 ((insts.countP (fun i => i.classLabel == pos) : ℝ) /
                ((insts.countP (fun i => i.classLabel == pos) : ℝ) +
                  ((insts.length - insts.countP (fun i => i.classLabel == pos) : ℕ) : ℝ) +
                  epsR))) -
              (-Real.logb 2 (((insts.filter (fun i => cond.satisfies i)).countP
                  (fun i => i.classLabel == pos) : ℝ) /
                (((insts.filter (fun i => cond.satisfies i)).countP
                    (fun i => i.classLabel == pos) : ℝ) +
                  (((insts.filter (fun i => cond.satisfies i)).length -
                    (insts.filter (fun i => cond.satisfies i)).countP
                      (fun i => i.classLabel == pos) : ℕ) : ℝ) +
                  epsR)))) : ℝ) : WithBot ℝ)) ∧
    (∀ (sample : Instance) (numAttrs : ℕ) (pos : String) (mc : ℕ) (fuel : ℕ)
        (rule : Rule) (current : List Instance),
      (∀ c ∈ candidateConds current sample numAttrs,
        calculate_foil_gain current c pos mc ≤ 0) →
      growLoop sample numAttrs pos mc (fuel + 1) rule current = rule) := by
  refine ⟨?_, ?_, ?_⟩
  · intro insts cond pos mc
    simp only [calculate_foil_gain]
    by_cases h1 : (insts.filter (fun i => cond.satisfies i)).length < mc
    · simp [h1]
    · simp only [h1, if_false]
      by_cases h2 : (insts.filter (fun i => cond.satisfies i)).countP
          (fun i => i.classLabel == pos) = 0
      · simp [h1, h2]
      · rw [if_neg h2]
        simp only [false_or]
        exact iff_of_false WithBot.coe_ne_bot h2
  · intro insts cond pos mc h
    push_neg at h
    simp only [calculate_foil_gain]
    rw [if_neg (not_lt.2 h.1), if_neg h.2]
  · intro sample numAttrs pos mc fuel rule current hall
    have ht : ∀ c ∈ candidateConds current sample numAttrs,
        foil_gain_t current c pos mc ≤ 1 :=
      fun c hc => (foil_gain_nonpos_iff current c pos mc).1 (hall c hc)
    have hle := bestCandidate_snd_le_one current sample numAttrs pos mc ht
    rw [growLoop]
    split
    · rfl
    · cases hbc : bestCandidate current sample numAttrs pos mc with
      | mk oc g =>
        cases oc with
        | none => rfl
        | some c =>
          have hg : g ≤ 1 := by
            have := congrArg Prod.snd hbc
            simp only [] at this
            rw [← this]
            exact hle
          have hif : (if g ≤ 1 then rule else growLoop sample numAttrs pos mc fuel
              (rule.add_condition c) (current.filter (fun i => c.satisfies i))) = rule :=
            if_pos hg
          exact hif

/-- Closed check of foil_gain_spec: with min_coverage 10 the candidate is
scored minus infinity; with min_coverage 1 the same candidate has a finite
gain; and on a pool where the only candidate has gain 0 the grow loop
appends nothing. -/
theorem foil_gain_spec_witness :
    calculate_foil_gain tsD ⟨0, "==", .str "1.5"⟩ "X" 10 = ⊥ ∧
    calculate_foil_gain tsD ⟨0, "==", .str "1.5"⟩ "X" 1 ≠ ⊥ ∧
    growLoop ⟨[⟨.discrete, .str "v"⟩], "A"⟩ 1 "A" 1 1 ⟨"A", []⟩
      [⟨[⟨.discrete, .str "v"⟩], "A"⟩, ⟨[⟨.discrete, .str "v"⟩], "B"⟩] = ⟨"A", []⟩ := by
  refine ⟨?_, ?_, ?_⟩
  · exact (foil_gain_spec.1 tsD ⟨0, "==", .str "1.5"⟩ "X" 10).mpr (by decide)
  · rw [foil_gain_spec.2.1 tsD ⟨0, "==", .str "1.5"⟩ "X" 1 (by decide)]
    exact WithBot.coe_ne_bot
  · refine foil_gain_spec.2.2 ⟨[⟨.discrete, .str "v"⟩], "A"⟩ 1 "A" 1 0 ⟨"A", []⟩
      [⟨[⟨.discrete, .str "v"⟩], "A"⟩, ⟨[⟨.discrete, .str "v"⟩], "B"⟩] ?_
    intro c hc
    rw [show candidateConds [⟨[⟨.discrete, .str "v"⟩], "A"⟩, ⟨[⟨.discrete, .str "v"⟩], "B"⟩]
        ⟨[⟨.discrete, .str "v"⟩], "A"⟩ 1 = [⟨0, "==", .str "v"⟩] from by decide] at hc
    rw [List.mem_singleton.1 hc]
    rw [foil_gain_nonpos_iff]
    decide

/-! ## Full order correspondence between the two gain scores

These lemmas justify that comparing foil_gain_t values (as the grow loop
does) is the same as comparing calculate_foil_gain values (as the source
does with floats): the two scores are related by the strictly monotone
map x to 2 ^ x, with minus infinity sent to 0. -/

theorem gain_body_eq_logb (p0 n0 p1 n1 : ℕ) (hp1 : 1 ≤ p1) (hp0 : p1 ≤ p0) :
    (p1 : ℝ) * ((-Real.logb 2 ((p0 : ℝ) / ((p0 : ℝ) + (n0 : ℝ) + epsR))) -
      (-Real.logb 2 ((p1 : ℝ) / ((p1 : ℝ) + (n1 : ℝ) + epsR)))) =
    Real.logb 2 ((((p1 : ℝ) / ((p1 : ℝ) + (n1 : ℝ) + epsR)) /
      ((p0 : ℝ) / ((p0 : ℝ) + (n0 : ℝ) + epsR))) ^ p1) := by
  have hp1R : (0 : ℝ) < (p1 : ℝ) := by exact_mod_cast hp1
  have hp0R : (0 : ℝ) < (p0 : ℝ) := by exact_mod_cast (lt_of_lt_of_le hp1 hp0)
  have hdbR : (0 : ℝ) < (p1 : ℝ) + (n1 : ℝ) + epsR :=
    add_pos_of_nonneg_of_pos (by positivity) epsR_pos
  have hdaR : (0 : ℝ) < (p0 : ℝ) + (n0 : ℝ) + epsR :=
    add_pos_of_nonneg_of_pos (by positivity) epsR_pos
  have hbR : (0 : ℝ) < (p1 : ℝ) / ((p1 : ℝ) + (n1 : ℝ) + epsR) := div_pos hp1R hdbR
  have haR : (0 : ℝ) < (p0 : ℝ) / ((p0 : ℝ) + (n0 : ℝ) + epsR) := div_pos hp0R hdaR
  rw [Real.logb_pow, Real.logb_div (ne_of_gt hbR) (ne_of_gt haR), neg_sub_neg]

theorem gain_t_cast (p0 n0 p1 n1 : ℕ) :
    ((qPow (qDiv (qDiv (p1 : ℚ) (qAdd (qAdd (p1 : ℚ) (n1 : ℚ)) epsQ))
        (qDiv (p0 : ℚ) (qAdd (qAdd (p0 : ℚ) (n0 : ℚ)) epsQ))) p1 : ℚ) : ℝ) =
    ((((p1 : ℝ) / ((p1 : ℝ) + (n1 : ℝ) + epsR)) /
      ((p0 : ℝ) / ((p0 : ℝ) + (n0 : ℝ) + epsR))) ^ p1) := by
  rw [qPow_eq, qDiv_eq, qDiv_eq, qDiv_eq, qAdd_eq, qAdd_eq, qAdd_eq, qAdd_eq]
  push_cast [epsQ_cast]
  rfl

theorem gain_t_pos (p0 n0 p1 n1 : ℕ) (hp1 : 1 ≤ p1) (hp0 : p1 ≤ p0) :
    0 < qPow (qDiv (qDiv (p1 : ℚ) (qAdd (qAdd (p1 : ℚ) (n1 : ℚ)) epsQ))
      (qDiv (p0 : ℚ) (qAdd (qAdd (p0 : ℚ) (n0 : ℚ)) epsQ))) p1 := by
  have hp1Q : (0 : ℚ) < (p1 : ℚ) := by exact_mod_cast hp1
  have hp0Q : (0 : ℚ) < (p0 : ℚ) := by exact_mod_cast (lt_of_lt_of_le hp1 hp0)
  have hdbQ : (0 : ℚ) < (p1 : ℚ) + (n1 : ℚ) + epsQ :=
    add_pos_of_nonneg_of_pos (by positivity) epsQ_pos
  have hdaQ : (0 : ℚ) < (p0 : ℚ) + (n0 : ℚ) + epsQ :=
    add_pos_of_nonneg_of_pos (by positivity) epsQ_pos
  rw [qPow_eq, qDiv_eq, qDiv_eq, qDiv_eq, qAdd_eq, qAdd_eq, qAdd_eq, qAdd_eq]
  exact pow_pos (div_pos (div_pos hp1Q hdbQ) (div_pos hp0Q hdaQ)) p1

/-- Strict order correspondence of the finite gain bodies of two
candidates. -/
theorem gain_trans_lt (p0 n0 p1 n1 q0 m0 q1 m1 : ℕ)
    (hp1 : 1 ≤ p1) (hp0 : p1 ≤ p0) (hq1 : 1 ≤ q1) (hq0 : q1 ≤ q0) :
    ((p1 : ℝ) * ((-Real.logb 2 ((p0 : ℝ) / ((p0 : ℝ) + (n0 : ℝ) + epsR))) -
      (-Real.logb 2 ((p1 : ℝ) / ((p1 : ℝ) + (n1 : ℝ) + epsR)))) <
     (q1 : ℝ) * ((-Real.logb 2 ((q0 : ℝ) / ((q0 : ℝ) + (m0 : ℝ) + epsR))) -
      (-Real.logb 2 ((q1 : ℝ) / ((q1 : ℝ) + (m1 : ℝ) + epsR))))) ↔
    (qPow (qDiv (qDiv (p1 : ℚ) (qAdd (qAdd (p1 : ℚ) (n1 : ℚ)) epsQ))
        (qDiv (p0 : ℚ) (qAdd (qAdd (p0 : ℚ) (n0 : ℚ)) epsQ))) p1 <
     qPow (qDiv (qDiv (q1 : ℚ) (qAdd (qAdd (q1 : ℚ) (m1 : ℚ)) epsQ))
        (qDiv (q0 : ℚ) (qAdd (qAdd (q0 : ℚ) (m0 : ℚ)) epsQ))) q1) := by
  rw [gain_body_eq_logb p0 n0 p1 n1 hp1 hp0, gain_body_eq_logb q0 m0 q1 m1 hq1 hq0]
  have hp1R : (0 : ℝ) < (p1 : ℝ) := by exact_mod_cast hp1
  have hp0R : (0 : ℝ) < (p0 : ℝ) := by exact_mod_cast (lt_of_lt_of_le hp1 hp0)
  have hq1R : (0 : ℝ) < (q1 : ℝ) := by exact_mod_cast hq1
  have hq0R : (0 : ℝ) < (q0 : ℝ) := by exact_mod_cast (lt_of_lt_of_le hq1 hq0)
  have hx : (0 : ℝ) < (((p1 : ℝ) / ((p1 : ℝ) + (n1 : ℝ) + epsR)) /
      ((p0 : ℝ) / ((p0 : ℝ) + (n0 : ℝ) + epsR))) ^ p1 := by
    have h1 := add_pos_of_nonneg_of_pos (by positivity : (0:ℝ) ≤ (p1 : ℝ) + (n1 : ℝ)) epsR_pos
    have h2 := add_pos_of_nonneg_of_pos (by positivity : (0:ℝ) ≤ (p0 : ℝ) + (n0 : ℝ)) epsR_pos
    exact pow_pos (div_pos (div_pos hp1R h1) (div_pos hp0R h2)) p1
  have hy : (0 : ℝ) < (((q1 : ℝ) / ((q1 : ℝ) + (m1 : ℝ) + epsR)) /
      ((q0 : ℝ) / ((q0 : ℝ) + (m0 : ℝ) + epsR))) ^ q1 := by
    have h1 := add_pos_of_nonneg_of_pos (by positivity : (0:ℝ) ≤ (q1 : ℝ) + (m1 : ℝ)) epsR_pos
    have h2 := add_pos_of_nonneg_of_pos (by positivity : (0:ℝ) ≤ (q0 : ℝ) + (m0 : ℝ)) epsR_pos
    exact pow_pos (div_pos (div_pos hq1R h1) (div_pos hq0R h2)) q1
  rw [Real.logb_lt_logb_iff one_lt_two hx hy]
  rw [← gain_t_cast p0 n0 p1 n1, ← gain_t_cast q0 m0 q1 m1]
  exact Rat.cast_lt

/-- Strict gain comparisons of the executable score coincide with those of
the real-valued score, for any two candidates over the same pool: this is
exactly the comparison performed in the candidate search of grow_rule. -/
theorem foil_gain_lt_iff (insts : List Instance) (c1 c2 : Condition) (pos : String)
    (mc : ℕ) :
    calculate_foil_gain insts c1 pos mc < calculate_foil_gain insts c2 pos mc ↔
    foil_gain_t insts c1 pos mc < foil_gain_t insts c2 pos mc := by
  simp only [calculate_foil_gain, foil_gain_t]
  by_cases ha1 : (insts.filter (fun i => c1.satisfies i)).length < mc
  · rw [if_pos ha1, if_pos ha1]
    by_cases hb1 : (insts.filter (fun i => c2.satisfies i)).length < mc
    · rw [if_pos hb1, if_pos hb1]
      simp
    · rw [if_neg hb1, if_neg hb1]
      by_cases hb2 : (insts.filter (fun i => c2.satisfies i)).countP
          (fun i => i.classLabel == pos) = 0
      · rw [if_pos hb2, if_pos hb2]
        simp
      · rw [if_neg hb2, if_neg hb2]
        simp only [WithBot.bot_lt_coe, true_iff]
        exact gain_t_pos _ _ _ _ (Nat.one_le_iff_ne_zero.2 hb2)
          (countP_filter_le insts _ _)
  · rw [if_neg ha1, if_neg ha1]
    by_cases ha2 : (insts.filter (fun i => c1.satisfies i)).countP
        (fun i => i.classLabel == pos) = 0
    · rw [if_pos ha2, if_pos ha2]
      by_cases hb1 : (insts.filter (fun i => c2.satisfies i)).length < mc
      · rw [if_pos hb1, if_pos hb1]
        simp
      · rw [if_neg hb1, if_neg hb1]
        by_cases hb2 : (insts.filter (fun i => c2.satisfies i)).countP
            (fun i => i.classLabel == pos) = 0
        · rw [if_pos hb2, if_pos hb2]
          simp
        · rw [if_neg hb2, if_neg hb2]
          simp only [WithBot.bot_lt_coe, true_iff]
          exact gain_t_pos _ _ _ _ (Nat.one_le_iff_ne_zero.2 hb2)
            (countP_filter_le insts _ _)
    · rw [if_neg ha2, if_neg ha2]
      by_cases hb1 : (insts.filter (fun i => c2.satisfies i)).length < mc
      · rw [if_pos hb1, if_pos hb1]
        constructor
        · intro h
          exact absurd h not_lt_bot
        · intro h
          exact absurd h (not_lt_of_le (le_of_lt (gain_t_pos _ _ _ _
            (Nat.one_le_iff_ne_zero.2 ha2) (countP_filter_le insts _ _))))
      · rw [if_neg hb1, if_neg hb1]
        by_cases hb2 : (insts.filter (fun i => c2.satisfies i)).countP
            (fun i => i.classLabel == pos) = 0
        · rw [if_pos hb2, if_pos hb2]
          constructor
          · intro h
            exact absurd h not_lt_bot
          · intro h
            exact absurd h (not_lt_of_le (le_of_lt (gain_t_pos _ _ _ _
              (Nat.one_le_iff_ne_zero.2 ha2) (countP_filter_le insts _ _))))
        · rw [if_neg hb2, if_neg hb2]
          rw [WithBot.coe_lt_coe]
          exact gain_trans_lt _ _ _ _ _ _ _ _
            (Nat.one_le_iff_ne_zero.2 ha2) (countP_filter_le insts _ _)
            (Nat.one_le_iff_ne_zero.2 hb2) (countP_filter_le insts _ _)

/-- The executable score is 0 exactly when the real score is minus
infinity (the initial best of the candidate fold: None with score -inf in
the source, None with score 0 here). -/
theorem foil_gain_t_eq_zero_iff (insts : List Instance) (c : Condition) (pos : String)
    (mc : ℕ) :
    foil_gain_t insts c pos mc = 0 ↔ calculate_foil_gain insts c pos mc = ⊥ := by
  simp only [calculate_foil_gain, foil_gain_t]
  by_cases h1 : (insts.filter (fun i => c.satisfies i)).length < mc
  · rw [if_pos h1, if_pos h1]
    simp
  · rw [if_neg h1, if_neg h1]
    by_cases h2 : (insts.filter (fun i => c.satisfies i)).countP
        (fun i => i.classLabel == pos) = 0
    · rw [if_pos h2, if_pos h2]
      simp
    · rw [if_neg h2, if_neg h2]
      constructor
      · intro h
        exact absurd h (ne_of_gt (gain_t_pos _ _ _ _ (Nat.one_le_iff_ne_zero.2 h2)
          (countP_filter_le insts _ _)))
      · intro h
        exact absurd h WithBot.coe_ne_bot


/-! ## Fuel adequacy

The while loops of the source are embedded with fuel bounds.  The
theorems below prove the strict-decrease facts those bounds rest on:
every improving pruning step removes exactly one condition, so
condition count + 1 steps reach the fixpoint, and every executed
grow step strictly shrinks the covered pool, so pool length + 1
steps reach a stop condition.  (The analogous fact for the inner
training loop, that every accepted rule removes at least one covered
positive from the pool, is proved with the claims above.) -/

theorem bestImprovement_fold_length (rule : Rule) (ps : List Instance) (pos : String)
    (best0 : ℚ) :
    ∀ (l : List ℕ), (∀ i ∈ l, i < rule.conditions.length) →
      ∀ (acc : Option (Rule × ℚ)),
        (∀ r m, acc = some (r, m) → r.conditions.length + 1 = rule.conditions.length) →
        ∀ r2 m2,
          l.foldl (fun acc i =>
            let temp := rule.remove_condition i
            let metric := calculate_pruning_metric temp ps pos
            match acc with
            | none => if best0 < metric then some (temp, metric) else none
            | some (br, bm) => if bm < metric then some (temp, metric) else some (br, bm))
            acc = some (r2, m2) →
          r2.conditions.length + 1 = rule.conditions.length := by
  intro l
  induction l with
  | nil => intro _ acc hacc r2 m2 h; exact hacc r2 m2 h
  | cons i t ih =>
    intro hlt acc hacc r2 m2 h
    rw [List.foldl_cons] at h
    refine ih (fun j hj => hlt j (by simp [hj])) _ ?_ r2 m2 h
    intro r m hr
    have hlen : (rule.remove_condition i).conditions.length + 1 = rule.conditions.length := by
      rw [Rule.remove_condition]
      have hi : i < rule.conditions.length := hlt i (by simp)
      simp only [List.length_eraseIdx, hi, if_true]
      omega
    cases acc with
    | none =>
      simp only [] at hr
      split at hr
      · cases hr; exact hlen
      · cases hr
    | some p =>
      obtain ⟨br, bm⟩ := p
      simp only [] at hr
      split at hr
      · cases hr; exact hlen
      · cases hr; exact hacc _ _ rfl

/-- Every improving pruning step removes exactly one condition, so the fuel
of prune_rule (condition count + 1) is never exhausted before the loop
reaches its fixpoint. -/
theorem bestImprovement_length (rule : Rule) (ps : List Instance) (pos : String)
    (best0 : ℚ) (r2 : Rule) (m2 : ℚ)
    (h : bestImprovement rule ps pos best0 = some (r2, m2)) :
    r2.conditions.length + 1 = rule.conditions.length := by
  rw [bestImprovement] at h
  refine bestImprovement_fold_length rule ps pos best0 (List.range rule.get_length)
    (fun i hi => List.mem_range.1 hi) none (fun r m hrm => by cases hrm) r2 m2 h

theorem bestCandidate_fold_gain (current : List Instance) (pos : String) (mc : ℕ) :
    ∀ (l : List Condition) (acc : Option Condition × ℚ),
      (∀ q, acc.1 = some q → acc.2 = foil_gain_t current q pos mc) →
      ∀ c2, (l.foldl (fun best c =>
          if best.2 < foil_gain_t current c pos mc
          then (some c, foil_gain_t current c pos mc) else best) acc).1 = some c2 →
        (l.foldl (fun best c =>
          if best.2 < foil_gain_t current c pos mc
          then (some c, foil_gain_t current c pos mc) else best) acc).2 =
          foil_gain_t current c2 pos mc := by
  intro l
  induction l with
  | nil => intro acc hacc c2 h; exact hacc c2 h
  | cons c t ih =>
    intro acc hacc c2 h
    rw [List.foldl_cons] at h ⊢
    refine ih _ ?_ c2 h
    intro q hq
    simp only [] at hq ⊢
    by_cases hlt : acc.2 < foil_gain_t current c pos mc
    · rw [if_pos hlt] at hq ⊢
      cases hq
      rfl
    · rw [if_neg hlt] at hq ⊢
      exact hacc q hq

/-- The gain paired with the best candidate is the gain of that candidate. -/
theorem bestCandidate_gain (current : List Instance) (sample : Instance) (numAttrs : ℕ)
    (pos : String) (mc : ℕ) (c : Condition) (g : ℚ)
    (h : bestCandidate current sample numAttrs pos mc = (some c, g)) :
    g = foil_gain_t current c pos mc := by
  have h' : (candidateConds current sample numAttrs).foldl
      (fun best c => if best.2 < foil_gain_t current c pos mc
        then (some c, foil_gain_t current c pos mc) else best) (none, 0) = (some c, g) := h
  have h2 := bestCandidate_fold_gain current pos mc (candidateConds current sample numAttrs)
    (none, 0) (fun q hq => Option.noConfusion hq) c (by rw [h'])
  rw [h'] at h2
  exact h2

/-- A transformed gain strictly above 1 forces the condition to exclude at
least one pool instance. -/
theorem foil_gain_t_gt_one_shrinks (insts : List Instance) (c : Condition)
    (pos : String) (mc : ℕ) (h : 1 < foil_gain_t insts c pos mc) :
    (insts.filter (fun i => c.satisfies i)).length < insts.length := by
  rcases lt_or_eq_of_le (List.length_filter_le (fun i => c.satisfies i) insts) with hl | hl
  · exact hl
  · exfalso
    have hall : ∀ i ∈ insts, c.satisfies i = true := by
      intro i hi
      by_contra hni
      have hx : (List.filter (fun i => c.satisfies i) insts).length < insts.length := by
        apply List.length_filter_lt_length_iff_exists.2
        exact ⟨i, hi, by simpa using hni⟩
      omega
    have hfe : insts.filter (fun i => c.satisfies i) = insts :=
      List.filter_eq_self.2 hall
    simp only [foil_gain_t, hfe] at h
    split at h
    · exact absurd h (by norm_num)
    split at h
    · exact absurd h (by norm_num)
    rename_i hmc hpa
    rw [qPow_eq, qDiv_eq, qDiv_eq, qAdd_eq, qAdd_eq] at h
    set pa : ℕ := insts.countP (fun i => i.classLabel == pos) with hpadef
    have hbpos : (0 : ℚ) < (pa : ℚ) / ((pa : ℚ) + ((insts.length - pa : ℕ) : ℚ) + epsQ) := by
      apply div_pos
      · exact_mod_cast Nat.pos_of_ne_zero hpa
      · have he : (0 : ℚ) < epsQ := by decide
        positivity
    rw [div_self (ne_of_gt hbpos), one_pow] at h
    exact absurd h (lt_irrefl 1)

/-- Every executed grow-loop iteration strictly shrinks the covered pool, so
the fuel of grow_rule (pool length + 1) is never exhausted before the loop
reaches a stop condition. -/
theorem growLoop_step_shrinks (current : List Instance) (sample : Instance)
    (numAttrs : ℕ) (pos : String) (mc : ℕ) (c : Condition) (g : ℚ)
    (h : bestCandidate current sample numAttrs pos mc = (some c, g)) (hg : ¬ g ≤ 1) :
    (current.filter (fun i => c.satisfies i)).length < current.length := by
  refine foil_gain_t_gt_one_shrinks current c pos mc ?_
  rw [bestCandidate_gain current sample numAttrs pos mc c g h] at hg
  exact not_le.1 hg
